import Mathlib

/-!
Verification of the markdocx core: the math-notation translator
(`src/markdocx/math_renderer.py`) and the token-stream document builder
(`src/markdocx/docx_builder.py`), shallowly embedded in Lean.

External collaborators (the latex2mathml converter, the lxml XML parser,
the python-docx document object, the filesystem) are modelled as oracle
parameters or as abstract event traces; everything written by the
repository itself is translated function by function from the source.
Python strings are modelled as `List Char` where character-level
semantics matter (`str.replace`, `str.strip`), and Python exceptions as
`Except` results; a `try/except` block becomes a `match` mapping the
error case to the fallback value.
-/

namespace Markdocx

/- ═══════════════════════ Python string primitives ═══════════════════════ -/

/-- Python `str.replace(needle, repl)`: scan left to right, replacing each
leftmost non-overlapping occurrence of `needle`.  (All call sites in the
repository use non-empty needles; an empty needle is treated as no-op.) -/
def pyReplace (needle repl : List Char) : List Char → List Char
  | [] => []
  | c :: cs =>
    if needle.isPrefixOf (c :: cs) ∧ needle ≠ [] then
      repl ++ pyReplace needle repl (cs.drop (needle.length - 1))
    else
      c :: pyReplace needle repl cs
termination_by l => l.length
decreasing_by
  · simp only [List.length_drop, List.length_cons]; omega
  · simp only [List.length_cons]; omega

/-- Python `str.strip()`: drop leading and trailing whitespace. -/
def pyStrip (l : List Char) : List Char :=
  ((l.dropWhile Char.isWhitespace).reverse.dropWhile Char.isWhitespace).reverse

/-- `str.strip()` lifted to `String`. -/
def pyStripStr (s : String) : String := String.mk (pyStrip s.toList)

/-- Python `str.replace` lifted to `String`. -/
def pyReplaceStr (needle repl s : String) : String :=
  String.mk (pyReplace needle.toList repl.toList s.toList)

/-- Python truthiness of a string / `str.strip()` emptiness test. -/
def pyStrEmpty (s : String) : Prop := s = ""

/-- Bool test: does `pat` occur inside `l` (Python `pat in s`). -/
def pyContains (pat l : List Char) : Bool :=
  match l with
  | [] => pat.isPrefixOf ([] : List Char)
  | c :: cs => pat.isPrefixOf (c :: cs) || pyContains pat cs

/-- Python `str.split()` with no argument: split on runs of whitespace,
dropping empty fragments. -/
def pyWords (l : List Char) : List (List Char) :=
  match h : l.dropWhile Char.isWhitespace with
  | [] => []
  | c :: cs =>
    let w := (c :: cs).takeWhile (fun a => ¬ a.isWhitespace)
    w :: pyWords (cs.dropWhile (fun a => ¬ a.isWhitespace))
termination_by l.length
decreasing_by
  have h1 : (List.dropWhile Char.isWhitespace l).length ≤ l.length :=
    (List.dropWhile_sublist _).length_le
  have h2 : (List.dropWhile (fun a => ¬ a.isWhitespace) cs).length ≤ cs.length :=
    (List.dropWhile_sublist _).length_le
  have h3 := congrArg List.length h
  simp only [List.length_cons] at *
  omega

/- ═══════════════════════ math_renderer.py : _clean_latex ═══════════════════════ -/

/-- `_clean_latex` (math_renderer.py lines 22-35): strip, then textually
replace the blackboard-bold shortcuts `\R \N \Z \Q \C`. -/
def cleanLatexL (l : List Char) : List Char :=
  let s := pyStrip l
  let s := pyReplace "\\R".toList "\\mathbb{R}".toList s
  let s := pyReplace "\\N".toList "\\mathbb{N}".toList s
  let s := pyReplace "\\Z".toList "\\mathbb{Z}".toList s
  let s := pyReplace "\\Q".toList "\\mathbb{Q}".toList s
  let s := pyReplace "\\C".toList "\\mathbb{C}".toList s
  s

/-- `_clean_latex` lifted to `String`. -/
def cleanLatex (s : String) : String := String.mk (cleanLatexL s.toList)

/- ═══════════════════════ XML element trees ═══════════════════════ -/

/-- An lxml `etree.Element`: tag, attributes, optional text, optional tail
text, ordered children.  Both the MathML input tree and the OMML output
tree of `math_renderer.py` are lxml elements, so one type models both.
Namespace prefixes are not modelled: the converter compares only local
tags (`_local` strips the namespace) and writes attributes in a single
namespace. -/
inductive XmlEl where
  | el (tag : String) (attrs : List (String × String)) (text : Option String)
      (tail : Option String) (children : List XmlEl)
deriving Repr

def XmlEl.tag : XmlEl → String
  | .el t _ _ _ _ => t

def XmlEl.attrs : XmlEl → List (String × String)
  | .el _ a _ _ _ => a

def XmlEl.text : XmlEl → Option String
  | .el _ _ x _ _ => x

def XmlEl.tail : XmlEl → Option String
  | .el _ _ _ tl _ => tl

def XmlEl.children : XmlEl → List XmlEl
  | .el _ _ _ _ cs => cs

/-- Replace an element's child list (models in-place `append` on lxml nodes). -/
def setChildren : XmlEl → List XmlEl → XmlEl
  | .el t a x tl _, cs => .el t a x tl cs

/-- `elem.get(key)`: attribute lookup. -/
def xmlAttr (attrs : List (String × String)) (key : String) : Option String :=
  (attrs.find? (fun p => p.1 = key)).map (·.2)

mutual
/-- `_get_text` (lines 523-532) before the final strip: element text,
then recursively each child's text and tail, concatenated. -/
def getTextRaw : XmlEl → List Char
  | .el _ _ text _ children =>
    (match text with | some t => t.toList | none => []) ++ getTextRawL children

/-- Body of the `for child in elem` loop of `_get_text`. -/
def getTextRawL : List XmlEl → List Char
  | [] => []
  | c :: cs =>
    getTextRaw c ++ (match c.tail with | some t => t.toList | none => []) ++ getTextRawL cs
end

/-- `_get_text` (lines 523-532): all text content, stripped. -/
def getTextEl (e : XmlEl) : String := String.mk (pyStrip (getTextRaw e))

/-- `_omml_run` (lines 93-98): `<m:r><m:t>text</m:t></m:r>`. -/
def ommlRun (s : String) : XmlEl :=
  .el "r" [] none none [.el "t" [] (some s) none []]

/-- A fresh empty `m:oMath` group element. -/
def oMathEmpty : XmlEl := .el "oMath" [] none none []

/-- A dummy element for (provably in-range) list indexing. -/
def dummyEl : XmlEl := .el "" [] none none []

/- ═══════════════════════ _append_flattened and friends ═══════════════════════ -/

/-- `_append_flattened` (lines 101-112): append `child` to `parent`, but
when both are `oMath` groups splice the child's children directly into
the parent (Word forbids nested `m:oMath`). -/
def appendFlattened (parent child : XmlEl) : XmlEl :=
  if child.tag = "oMath" ∧ parent.tag = "oMath" then
    setChildren parent (parent.children ++ child.children)
  else
    setChildren parent (parent.children ++ [child])

/-- The `for child in …: result = convert(child); if result is not None:
_append_flattened(parent, result)` loop, folded over a list of conversion
results. -/
def flatInto (parent : XmlEl) (rs : List (Option XmlEl)) : XmlEl :=
  rs.foldl (fun p r => match r with | some c => appendFlattened p c | none => p) parent

/-- Closed form of the children contributed by `flatInto` into an `oMath`
parent: each successful result contributes itself, or its children when
it is itself an `oMath` group. -/
def flatChildren (rs : List (Option XmlEl)) : List XmlEl :=
  rs.foldr
    (fun r acc =>
      match r with
      | some c => (if c.tag = "oMath" then c.children else [c]) ++ acc
      | none => acc)
    []

/-- The `m:d` (delimited group) element built by the matrix patterns of
the `mrow` branch: `dPr` with `begChr`/`endChr` values, then an `m:e`
holding the converted table (if the conversion succeeded). -/
def dElem (openDelim closeDelim : String) (content : Option XmlEl) : XmlEl :=
  .el "d" [] none none
    [.el "dPr" [] none none
      [.el "begChr" [("val", openDelim)] none none [],
       .el "endChr" [("val", closeDelim)] none none []],
     .el "e" [] none none content.toList]

/-- Python `str.isdigit()` (ASCII digits suffice for the single-character
identifiers this code inspects). -/
def pyIsDigit (s : String) : Bool := s.toList ≠ [] && s.toList.all Char.isDigit

/-- Pattern 3 of the `mrow` branch plus the default group case
(lines 176-228): free search for an embedded `mtable` among the row's
children, splitting into prefix siblings, a delimiter-wrapped table, and
suffix siblings.  `children` are the row's children, `childTags` their
tags, and `rs` their conversion results (in order). -/
def mrowRest (children : List XmlEl) (childTags : List String)
    (rs : List (Option XmlEl)) : Option XmlEl :=
  match childTags.findIdx? (fun t => t = "mtable") with
  | some idx =>
    let hasOpen := 0 < idx ∧ childTags.getD (idx - 1) "" = "mo"
    let hasClose := idx < childTags.length - 1 ∧ childTags.getD (idx + 1) "" = "mo"
    if hasOpen ∨ hasClose then
      let start := if hasOpen then idx - 1 else idx
      let group0 := flatInto oMathEmpty (rs.take start)
      let openDelim := if hasOpen then getTextEl (children.getD (idx - 1) dummyEl) else ""
      let closeDelim := if hasClose then getTextEl (children.getD (idx + 1) dummyEl) else ""
      let d := dElem openDelim closeDelim (rs.getD idx none)
      let group1 := setChildren group0 (group0.children ++ [d])
      let endIdx := if hasClose then idx + 2 else idx + 1
      some (flatInto group1 (rs.drop endIdx))
    else
      some (flatInto oMathEmpty rs)
  | none => some (flatInto oMathEmpty rs)

/- ═══════════════════════ _convert_mathml_element ═══════════════════════ -/

/-- The set of n-ary big-operator characters (line 384). -/
def naryChars : List String := ["∑", "∏", "∫", "∬", "∭", "⋃", "⋂", "⋁", "⋀"]

mutual
/-- `_convert_mathml_element` (lines 122-520): recursively convert a
MathML element tree to an OMML element tree, or `none` when the node
translates to nothing. -/
def convertEl : XmlEl → Option XmlEl
  | .el tag attrs text _tail children =>
    let rs := convertMany children
    if tag = "math" then
      some (flatInto oMathEmpty rs)
    else if tag = "mrow" then
      let childTags := children.map XmlEl.tag
      if childTags = ["mo", "mtable", "mo"] then
        -- Pattern 1: mo + mtable + mo
        let g0 := getTextEl (children.getD 0 dummyEl)
        let g2 := getTextEl (children.getD 2 dummyEl)
        some (dElem (if g0 = "" then "(" else g0) (if g2 = "" then ")" else g2)
          (rs.getD 1 none))
      else if childTags = ["mo", "mtable"] then
        -- Pattern 2: mo + mtable (cases)
        let g0 := getTextEl (children.getD 0 dummyEl)
        some (dElem (if g0 = "" then "\x7b" else g0) "" (rs.getD 1 none))
      else
        mrowRest children childTags rs
    else if tag = "mi" ∨ tag = "mn" ∨ tag = "mo" ∨ tag = "mtext" then
      let t := pyStripStr ((text.getD ""))
      if t = "" then none
      else
        some (.el "r" [] none none
          ((if tag = "mi" ∧ t.length = 1 then
              [XmlEl.el "rPr" [] none none
                [.el "sty" [("val", if pyIsDigit t then "p" else "i")] none none []]]
            else []) ++ [XmlEl.el "t" [] (some t) none []]))
    else if tag = "mfrac" then
      if children.length < 2 then none
      else
        some (.el "f" [] none none
          [.el "fPr" [] none none
            (if xmlAttr attrs "linethickness" = some "0" then
              [XmlEl.el "type" [("val", "noBar")] none none []]
             else []),
           .el "num" [] none none (rs.getD 0 none).toList,
           .el "den" [] none none (rs.getD 1 none).toList])
    else if tag = "msqrt" then
      some (.el "rad" [] none none
        [.el "radPr" [] none none [.el "degHide" [("val", "1")] none none []],
         .el "deg" [] none none [],
         .el "e" [] none none rs.reduceOption])
    else if tag = "mroot" then
      some (.el "rad" [] none none
        [.el "radPr" [] none none [],
         .el "deg" [] none none (if children.length > 1 then (rs.getD 1 none).toList else []),
         .el "e" [] none none (if children.isEmpty then [] else (rs.getD 0 none).toList)])
    else if tag = "msup" then
      if children.length < 2 then none
      else
        some (.el "sSup" [] none none
          [.el "e" [] none none (rs.getD 0 none).toList,
           .el "sup" [] none none (rs.getD 1 none).toList])
    else if tag = "msub" then
      if children.length < 2 then none
      else
        some (.el "sSub" [] none none
          [.el "e" [] none none (rs.getD 0 none).toList,
           .el "sub" [] none none (rs.getD 1 none).toList])
    else if tag = "msubsup" then
      if children.length < 3 then none
      else
        some (.el "sSubSup" [] none none
          [.el "e" [] none none (rs.getD 0 none).toList,
           .el "sub" [] none none (rs.getD 1 none).toList,
           .el "sup" [] none none (rs.getD 2 none).toList])
    else if tag = "mover" then
      if children.length < 2 then none
      else
        let overText := getTextEl (children.getD 1 dummyEl)
        some (.el "acc" [] none none
          [.el "accPr" [] none none
            (if overText ≠ "" then [XmlEl.el "chr" [("val", overText)] none none []] else []),
           .el "e" [] none none (rs.getD 0 none).toList])
    else if tag = "munder" then
      if children.length < 2 then none
      else
        some (.el "limLow" [] none none
          [.el "e" [] none none (rs.getD 0 none).toList,
           .el "lim" [] none none (rs.getD 1 none).toList])
    else if tag = "munderover" then
      if children.length < 3 then none
      else
        let baseText := getTextEl (children.getD 0 dummyEl)
        if baseText ∈ naryChars then
          some (.el "nary" [] none none
            [.el "naryPr" [] none none [.el "chr" [("val", baseText)] none none []],
             .el "sub" [] none none (rs.getD 1 none).toList,
             .el "sup" [] none none (rs.getD 2 none).toList,
             .el "e" [] none none []])
        else
          some (.el "sSup" [] none none
            [.el "e" [] none none
              [XmlEl.el "limLow" [] none none
                [.el "e" [] none none (rs.getD 0 none).toList,
                 .el "lim" [] none none (rs.getD 1 none).toList]],
             .el "sup" [] none none (rs.getD 2 none).toList])
    else if tag = "mfenced" then
      let openDelim := (xmlAttr attrs "open").getD "("
      let closeDelim := (xmlAttr attrs "close").getD ")"
      let separators := (xmlAttr attrs "separators").getD ","
      some (.el "d" [] none none
        ((.el "dPr" [] none none
            ((if openDelim ≠ "" then [XmlEl.el "begChr" [("val", openDelim)] none none []] else []) ++
             (if closeDelim ≠ "" then [XmlEl.el "endChr" [("val", closeDelim)] none none []] else []) ++
             (if separators ≠ "" then
               [XmlEl.el "sepChr"
                 [("val", match pyStrip separators.toList with
                   | [] => ""
                   | c :: _ => String.mk [c])] none none []]
              else []))) ::
         rs.map (fun r => XmlEl.el "e" [] none none r.toList)))
    else if tag = "mtable" then
      let firstRow := children.find? (fun c => c.tag = "mtr")
      some (.el "m" [] none none
        ((.el "mPr" [] none none
          (match firstRow with
           | some fr =>
             [XmlEl.el "mcs" [] none none
               [.el "mc" [] none none
                 [.el "mcPr" [] none none
                   [.el "count" [("val", toString fr.children.length)] none none [],
                    .el "mcJc" [("val", "center")] none none []]]]]
           | none => [])) ::
         convertRows children))
    else if tag = "mspace" then
      some (ommlRun " ")
    else if tag = "mpadded" ∨ tag = "mstyle" ∨ tag = "menclose" then
      some (flatInto oMathEmpty rs)
    else
      -- Unknown tag: text run, or grouped children, or nothing
      let t := pyStripStr (text.getD "")
      if t ≠ "" then some (ommlRun t)
      else
        let group := flatInto oMathEmpty rs
        if group.children.isEmpty then none else some group
termination_by e => sizeOf e

/-- Conversion results of a list of sibling elements, in order. -/
def convertMany : List XmlEl → List (Option XmlEl)
  | [] => []
  | c :: cs => convertEl c :: convertMany cs
termination_by cs => sizeOf cs

/-- The `mtr` row loop of the `mtable` branch (lines 464-477). -/
def convertRows : List XmlEl → List XmlEl
  | [] => []
  | .el t _ _ _ cs :: rest =>
    (if t = "mtr" then [XmlEl.el "mr" [] none none (convertCells cs)] else []) ++
    convertRows rest
termination_by rows => sizeOf rows

/-- The `mtd` cell loop of the `mtable` branch (lines 467-476). -/
def convertCells : List XmlEl → List XmlEl
  | [] => []
  | .el t _ tx _ cs :: rest =>
    (if t = "mtd" then
      let base := flatInto (.el "e" [] none none []) (convertMany cs)
      let withText :=
        match tx with
        | some s => if pyStripStr s ≠ "" then setChildren base (base.children ++ [ommlRun (pyStripStr s)]) else base
        | none => base
      [withText]
     else []) ++ convertCells rest
termination_by cells => sizeOf cells
end

/- ═══════════════════════ The translation pipeline ═══════════════════════ -/

/-- The external `latex2mathml.converter.convert` collaborator: given the
cleaned LaTeX it either returns a MathML string or raises (modelled as
`Except.error`).  Its behaviour is a parameter of the pipeline. -/
abbrev LatexConv := String → Except String String

/-- The external `lxml etree.fromstring` collaborator: parses a MathML
string into an element tree or raises. -/
abbrev XmlParse := String → Except String XmlEl

/-- The namespace-declaration fix-up applied before parsing
(`_mathml_to_omml` lines 72-73). -/
def mathmlNsFix (s : String) : String :=
  if pyContains "xmlns".toList s.toList then s
  else pyReplaceStr "<math>"
    "<math xmlns=\"http://www.w3.org/1998/Math/MathML\">" s

/-- `latex_to_mathml` (lines 38-58): empty/whitespace input yields `none`;
otherwise clean and convert, catching any converter exception
(`except Exception: return None`). -/
def latex_to_mathml (conv : LatexConv) (s : String) : Option String :=
  if s = "" ∨ pyStripStr s = "" then none
  else
    match conv (cleanLatex s) with
    | .ok m => some m
    | .error _ => none

/-- `_mathml_to_omml` (lines 61-81): parse the MathML string and convert
it, catching any exception of the `try` block (`except Exception:
return None`). -/
def mathml_to_omml (parse : XmlParse) (ms : String) : Option XmlEl :=
  match parse (mathmlNsFix ms) with
  | .ok root => convertEl root
  | .error _ => none

/-- `latex_to_omml` (lines 535-550): compose the two stages; a `none`
from either stage is the failure signal. -/
def latex_to_omml (conv : LatexConv) (parse : XmlParse) (s : String) : Option XmlEl :=
  match latex_to_mathml conv s with
  | none => none
  | some ms => mathml_to_omml parse ms

/-- `latex_to_omml_para` (lines 553-570): wrap a successful conversion in
`m:oMathPara`. -/
def latex_to_omml_para (conv : LatexConv) (parse : XmlParse) (s : String) : Option XmlEl :=
  match latex_to_omml conv parse s with
  | none => none
  | some omath => some (.el "oMathPara" [] none none [omath])

/-- Spec-side comparison definition for the error-containment contract
(spec §4.1: "all internal parse/convert errors are caught and reported as
translation unavailable").  The same pipeline as `latex_to_omml` but with
the two `try/except` blocks removed, so a raising collaborator propagates
its exception. -/
def latexToOmmlNoCatch (conv : LatexConv) (parse : XmlParse) (s : String) :
    Except String (Option XmlEl) :=
  if s = "" ∨ pyStripStr s = "" then .ok none
  else
    match conv (cleanLatex s) with
    | .error e => .error e
    | .ok ms =>
      match parse (mathmlNsFix ms) with
      | .error e => .error e
      | .ok root => .ok (convertEl root)

/- ═══════════════════════ docx_builder.py : data model ═══════════════════════ -/

/-- A markdown-it token (the fields the builder reads).  `children` are
the inline sub-tokens of an `inline` token; `meta` holds the
footnote-plugin metadata (integer-valued entries such as `"id"`). -/
inductive Token where
  | mk (type tag info content : String) (children : List Token)
      (attrs : List (String × String)) (meta : List (String × Int))
deriving Repr

def Token.type : Token → String
  | .mk t _ _ _ _ _ _ => t

def Token.tag : Token → String
  | .mk _ t _ _ _ _ _ => t

def Token.info : Token → String
  | .mk _ _ i _ _ _ _ => i

def Token.content : Token → String
  | .mk _ _ _ c _ _ _ => c

def Token.children : Token → List Token
  | .mk _ _ _ _ cs _ _ => cs

def Token.attrs : Token → List (String × String)
  | .mk _ _ _ _ _ a _ => a

def Token.meta : Token → List (String × Int)
  | .mk _ _ _ _ _ _ m => m

/-- `token.attrGet(name)` (falling back to `attrs.get`). -/
def tokAttr (t : Token) (k : String) : Option String :=
  (t.attrs.find? (fun p => p.1 = k)).map (·.2)

/-- `token.meta.get(name)`. -/
def metaGet (t : Token) (k : String) : Option Int :=
  (t.meta.find? (fun p => p.1 = k)).map (·.2)

/-- Placeholder token for (guarded) list indexing. -/
def defTok : Token := ⟨"", "", "", "", [], [], []⟩

/-- A token with only a type (e.g. `paragraph_open`). -/
def T0 (ty : String) : Token := ⟨ty, "", "", "", [], [], []⟩

/-- A token with type and content. -/
def Tc (ty content : String) : Token := ⟨ty, "", "", content, [], [], []⟩

/-- A token with type and inline children. -/
def Tch (ty : String) (children : List Token) : Token := ⟨ty, "", "", "", children, [], []⟩

/-- `self._ordered_counters`: a Python dict from list depth to counter.
Assignment to an existing key keeps its position; `del` removes the key. -/
abbrev Counters := List (Int × Int)

def dictGet (k : Int) : Counters → Option Int
  | [] => none
  | p :: ps => if p.1 = k then some p.2 else dictGet k ps

def dictInsert (k v : Int) : Counters → Counters
  | [] => [(k, v)]
  | p :: ps => if p.1 = k then (k, v) :: ps else p :: dictInsert k v ps

def dictErase (k : Int) (d : Counters) : Counters :=
  d.filter (fun p => p.1 ≠ k)

def dictHas (k : Int) (d : Counters) : Bool := (dictGet k d).isSome

/-- Table-cell alignment derived from the `style` attribute. -/
inductive Align where
  | center
  | right
deriving Repr, DecidableEq

/-- Inline-level run events appended by `_process_inline` (and the extra
paragraphs it may append, such as image captions).  The python-docx
paragraph object is an external collaborator; its contents are modelled
as this event trace. -/
inductive RE where
  | text (s : String) (bold italic strike : Bool)
  | link (url s : String) (bold italic native : Bool)
  | code (s : String) (bold italic : Bool)
  | math (tex : String)
  | mathFb (tex : String) (double : Bool)
  | image (src alt : String)
  | imageCaption (alt : String)
  | imageFail (s : String)
  | imageMissing (s : String)
  | brk (hard : Bool)
  | fnRef (n : Int)
deriving Repr, DecidableEq

/-- The content written into one table cell: inline runs, the
header-styling flag (`is_header or is_hdr`), and the alignment. -/
structure CellFill where
  runs : List RE
  header : Bool
  align : Option Align
deriving Repr, DecidableEq

/-- Block-level events appended to the python-docx document by the
builder's handlers (the document object is an external collaborator,
modelled as this ordered trace). -/
inductive DEv where
  | headingB (level : Int)
  | paraB (indentUnits : Int)
  | bqStyled (depth : Int)
  | bqColored
  | run (r : RE)
  | codeB (code lang : String)
  | diagramB (code lang : String)
  | mathParaB (tex : String)
  | mathParaFb (tex : String)
  | hrB
  | listItemB (indentUnits : Int)
  | markerRun (s : String) (bold : Bool)
  | tableB (rows cols : Nat) (grid : List (List (Option CellFill)))
  | fnTitle
  | fnParaB
deriving Repr

/-- Behaviour of the external collaborators the builder touches. -/
structure Env where
  conv : LatexConv
  parse : XmlParse
  imageExists : String → Bool
  embedOk : String → Bool
  linkOk : String → Bool
  baseDir : String

/-- The builder's traversal state (`self._blockquote_depth`,
`self._list_depth`, `self._ordered_counters`) together with the document
trace. -/
structure BState where
  doc : List DEv
  blockquoteDepth : Int
  listDepth : Int
  orderedCounters : Counters
deriving Repr

/-- Fresh state of a newly constructed `DocxBuilder`. -/
def initState : BState := ⟨[], 0, 0, []⟩

/-- A handler result: either the new state and next token index, or a
propagating Python exception together with the state at raise time (the
builder object survives the exception, so the error carries the state). -/
abbrev BRes := Except (String × BState) (BState × Nat)

/- ═══════════════════════ _process_inline ═══════════════════════ -/

/-- Python `os.path.isabs` (POSIX). -/
def pyIsAbs (p : String) : Bool :=
  match p.toList with
  | '/' :: _ => true
  | _ => false

/-- The events of `_handle_image` (lines 707-749). -/
def imageEvents (env : Env) (c : Token) : List RE :=
  let src := (tokAttr c "src").getD ""
  let alt :=
    if ¬ c.children.isEmpty then
      String.join (c.children.filterMap (fun ch => if ch.type = "text" then some ch.content else none))
    else (tokAttr c "alt").getD ""
  if src = "" then [RE.imageFail ("[Image: " ++ alt ++ "]")]
  else
    let imagePath := if pyIsAbs src then src else env.baseDir ++ "/" ++ src
    if env.imageExists imagePath then
      if env.embedOk imagePath then
        RE.image src alt :: (if alt ≠ "" then [RE.imageCaption alt] else [])
      else
        [RE.imageFail ("[Image: " ++ (if alt = "" then src else alt) ++ "]")]
    else [RE.imageMissing ("[Image not found: " ++ src ++ "]")]

/-- Prepend an event to an inline-processing result. -/
def consRE (e : RE) (p : List RE × Option String) : List RE × Option String := (e :: p.1, p.2)

/-- Prepend several events to an inline-processing result. -/
def consRREs (es : List RE) (p : List RE × Option String) : List RE × Option String :=
  (es ++ p.1, p.2)

/-- `_process_inline` (lines 473-631): walk the inline children with the
bold/italic/strikethrough toggles and the current link target, appending
run events.  Returns the events appended so far and, when the
`footnote_ref` branch evaluates `int("?")`, the propagating `ValueError`
(events already appended stay in the trace, as the Python paragraph
keeps its runs). -/
def piGo (env : Env) : List Token → Bool → Bool → Bool → Option String → List RE × Option String
  | [], _, _, _, _ => ([], none)
  | c :: rest, bold, italic, strike, linkHref =>
    let t := c.type
    if t = "strong_open" then piGo env rest true italic strike linkHref
    else if t = "strong_close" then piGo env rest false italic strike linkHref
    else if t = "em_open" then piGo env rest bold true strike linkHref
    else if t = "em_close" then piGo env rest bold false strike linkHref
    else if t = "s_open" then piGo env rest bold italic true linkHref
    else if t = "s_close" then piGo env rest bold italic false linkHref
    else if t = "link_open" then
      piGo env rest bold italic strike (some ((tokAttr c "href").getD ""))
    else if t = "link_close" then piGo env rest bold italic strike none
    else if t = "text" then
      consRE
        (match linkHref with
         | some url => RE.link url c.content bold italic (env.linkOk url)
         | none => RE.text c.content bold italic strike)
        (piGo env rest bold italic strike linkHref)
    else if t = "code_inline" then
      consRE (RE.code c.content bold italic) (piGo env rest bold italic strike linkHref)
    else if t = "math_inline" then
      let tex := pyStripStr c.content
      consRE
        (match latex_to_omml env.conv env.parse tex with
         | some _ => RE.math tex
         | none => RE.mathFb tex false)
        (piGo env rest bold italic strike linkHref)
    else if t = "math_inline_double" then
      let tex := pyStripStr c.content
      consRE
        (match latex_to_omml env.conv env.parse tex with
         | some _ => RE.math tex
         | none => RE.mathFb tex true)
        (piGo env rest bold italic strike linkHref)
    else if t = "image" then
      consRREs (imageEvents env c) (piGo env rest bold italic strike linkHref)
    else if t = "softbreak" then
      consRE (RE.brk false) (piGo env rest bold italic strike linkHref)
    else if t = "hardbreak" then
      consRE (RE.brk true) (piGo env rest bold italic strike linkHref)
    else if t = "html_inline" then
      let cl := (pyStripStr c.content).toLower
      if cl = "<br>" ∨ cl = "<br/>" ∨ cl = "<br />" then
        consRE (RE.brk true) (piGo env rest bold italic strike linkHref)
      else piGo env rest bold italic strike linkHref
    else if t = "footnote_ref" then
      -- ref_id = child.meta.get("id", "?") if … else "?"; int(ref_id) + 1
      match (if c.meta.isEmpty then none else metaGet c "id") with
      | some n => consRE (RE.fnRef (n + 1)) (piGo env rest bold italic strike linkHref)
      | none => ([], some "ValueError")
    else piGo env rest bold italic strike linkHref

/-- `_process_inline` entry point (flags start cleared). -/
def processInline (env : Env) (children : List Token) : List RE × Option String :=
  piGo env children false false false none

/- ═══════════════════════ plain block handlers ═══════════════════════ -/

/-- `int(tokens[i].tag[1])` of `_handle_heading` (line 131): `tag[1]`
raises `IndexError` on a short tag, `int` raises `ValueError` on a
non-digit. -/
def intOfTagChar (tag : String) : Except String Int :=
  match tag.toList.drop 1 with
  | [] => .error "IndexError"
  | ch :: _ => if ch.isDigit then .ok ((ch.toNat - '0'.toNat : Nat) : Int) else .error "ValueError"

/-- Grab the `inline` token after an open token, if present
(the `if i < len(tokens) and tokens[i].type == "inline"` idiom). -/
def grabInline (tokens : List Token) (i : Nat) : Option Token × Nat :=
  if i < tokens.length ∧ (tokens.getD i defTok).type = "inline" then
    (some (tokens.getD i defTok), i + 1)
  else (none, i)

/-- Skip a given close-token if present (the `if i < len(tokens) and
tokens[i].type == close` idiom). -/
def skipClose (tokens : List Token) (i : Nat) (close : String) : Nat :=
  if i < tokens.length ∧ (tokens.getD i defTok).type = close then i + 1 else i

/-- Inline events of an optional inline token, guarded by
`if inline_token and inline_token.children`. -/
def inlineRunsOf (env : Env) (inlineTok : Option Token) : List RE × Option String :=
  match inlineTok with
  | some it => if it.children.isEmpty then ([], none) else processInline env it.children
  | none => ([], none)

/-- `_handle_heading` (lines 129-155). -/
def handleHeading (env : Env) (tokens : List Token) (i : Nat) (st : BState) : BRes :=
  match intOfTagChar (tokens.getD i defTok).tag with
  | .error e => .error (e, st)
  | .ok level =>
    let (inlineTok, i2) := grabInline tokens (i + 1)
    let i3 := skipClose tokens i2 "heading_close"
    let (runs, err) := inlineRunsOf env inlineTok
    let st1 := { st with doc := st.doc ++ [DEv.headingB (min level 6)] ++ runs.map DEv.run }
    match err with
    | some e => .error (e, st1)
    | none =>
      let st2 :=
        if st1.blockquoteDepth > 0 then
          { st1 with doc := st1.doc ++ [DEv.bqStyled st1.blockquoteDepth] }
        else st1
      .ok (st2, i3)

/-- `_handle_paragraph` (lines 157-187). -/
def handleParagraph (env : Env) (tokens : List Token) (i : Nat) (st : BState) : BRes :=
  let (inlineTok, i2) := grabInline tokens (i + 1)
  let i3 := skipClose tokens i2 "paragraph_close"
  let indent : Int := if st.listDepth > 0 then st.listDepth else 0
  let (runs, err) := inlineRunsOf env inlineTok
  let st1 := { st with doc := st.doc ++ [DEv.paraB indent] ++ runs.map DEv.run }
  match err with
  | some e => .error (e, st1)
  | none =>
    let st2 :=
      if st1.blockquoteDepth > 0 then
        { st1 with doc := st1.doc ++ [DEv.bqStyled st1.blockquoteDepth, DEv.bqColored] }
      else st1
    .ok (st2, i3)

/-- `is_diagram_language` (diagram_renderer.py lines 44-46). -/
def isDiagramLanguage (language : String) : Bool :=
  let l := (pyStripStr language).toLower
  l = "matrix" || l = "chart" || l = "graph" || l = "workflow"

/-- `_handle_code_block` (lines 189-200): `token.info.strip().split()[0]`
raises `IndexError` when the (truthy) info is pure whitespace. -/
def handleCodeBlock (env : Env) (tok : Token) (st : BState) :
    Except (String × BState) BState :=
  match
    (if tok.info = "" then Except.ok ""
     else
       match pyWords (pyStrip tok.info.toList) with
       | [] => Except.error "IndexError"
       | w :: _ => Except.ok (String.mk w)) with
  | .error e => .error (e, st)
  | .ok language =>
    if isDiagramLanguage language then
      .ok { st with doc := st.doc ++ [DEv.diagramB tok.content language] }
    else
      .ok { st with doc := st.doc ++ [DEv.codeB tok.content language] }

/-- `_handle_math_block` (lines 202-222). -/
def handleMathBlock (env : Env) (tok : Token) (st : BState) : BState :=
  let tex := pyStripStr tok.content
  if tex = "" then st
  else
    match latex_to_omml_para env.conv env.parse tex with
    | some _ => { st with doc := st.doc ++ [DEv.mathParaB tex] }
    | none => { st with doc := st.doc ++ [DEv.mathParaFb tex] }

/- ═══════════════════════ _handle_table ═══════════════════════ -/

/-- One accumulated table cell: its inline token, the header-section
flag at collection time, and the alignment from the `style` attribute. -/
structure Cell where
  inlineTok : Option Token
  isHeader : Bool
  align : Option Align
deriving Repr

/-- Alignment extraction of the `th_open`/`td_open` branch
(lines 366-373). -/
def cellAlign (tok : Token) : Option Align :=
  if tok.attrs.isEmpty then none
  else
    match tokAttr tok "style" with
    | some sv =>
      if pyContains "text-align:center".toList sv.toList then some .center
      else if pyContains "text-align:right".toList sv.toList then some .right
      else none
    | none => none

/-- The row/cell collection loop of `_handle_table` (lines 345-385):
accumulate rows of cells until `table_close`, returning the rows and the
exit index. -/
def collectTableRows (tokens : List Token) (i : Nat)
    (rows : List (List Cell × Bool)) (cur : List Cell) (isHdr : Bool) :
    List (List Cell × Bool) × Nat :=
  if h : i < tokens.length then
    let tok := tokens.getD i defTok
    let t := tok.type
    if t = "table_close" then (rows, i + 1)
    else if t = "thead_open" then collectTableRows tokens (i + 1) rows cur true
    else if t = "thead_close" then collectTableRows tokens (i + 1) rows cur false
    else if t = "tbody_open" ∨ t = "tbody_close" then collectTableRows tokens (i + 1) rows cur isHdr
    else if t = "tr_open" then collectTableRows tokens (i + 1) rows [] isHdr
    else if t = "tr_close" then collectTableRows tokens (i + 1) (rows ++ [(cur, isHdr)]) cur isHdr
    else if t = "th_open" ∨ t = "td_open" then
      let align := cellAlign tok
      let gi := grabInline tokens (i + 1)
      let i3 :=
        if gi.2 < tokens.length ∧
            ((tokens.getD gi.2 defTok).type = "th_close" ∨ (tokens.getD gi.2 defTok).type = "td_close")
        then gi.2 + 1 else gi.2
      collectTableRows tokens i3 rows (cur ++ [⟨gi.1, isHdr, align⟩]) isHdr
    else collectTableRows tokens (i + 1) rows cur isHdr
  else (rows, i)
termination_by tokens.length - i
decreasing_by
  all_goals try simp only [grabInline]
  all_goals repeat' split
  all_goals try simp_all
  all_goals omega

/-- `max(len(row) for row, _ in rows_data)` (line 391). -/
def maxRowWidth (rows : List (List Cell × Bool)) : Nat :=
  rows.foldl (fun m rb => max m rb.1.length) 0

/-- Write one filled cell into the grid. -/
def gridSet (g : List (List (Option CellFill))) (r c : Nat) (v : CellFill) :
    List (List (Option CellFill)) :=
  g.set r ((g.getD r []).set c (some v))

/-- The inner cell-filling loop of the build phase (lines 402-420):
walk one row's cells, stopping at `num_cols`, processing each cell's
inline content (whose `ValueError` propagates). -/
def fillRowCells (env : Env) (numCols rowIdx : Nat) (isHdr : Bool) :
    List Cell → Nat → List (List (Option CellFill)) →
    List (List (Option CellFill)) × Option String
  | [], _, g => (g, none)
  | cell :: restCells, colIdx, g =>
    if numCols ≤ colIdx then (g, none)
    else
      let (runs, err) := inlineRunsOf env cell.inlineTok
      let g1 := gridSet g rowIdx colIdx ⟨runs, cell.isHeader || isHdr, cell.align⟩
      match err with
      | some e => (g1, some e)
      | none => fillRowCells env numCols rowIdx isHdr restCells (colIdx + 1) g1

/-- The outer row loop of the build phase (line 401). -/
def fillAllRows (env : Env) (numCols : Nat) :
    List (List Cell × Bool) → Nat → List (List (Option CellFill)) →
    List (List (Option CellFill)) × Option String
  | [], _, g => (g, none)
  | (row, isHdr) :: rest, rowIdx, g =>
    match fillRowCells env numCols rowIdx isHdr row 0 g with
    | (g1, some e) => (g1, some e)
    | (g1, none) => fillAllRows env numCols rest (rowIdx + 1) g1

/-- The build phase of `_handle_table` (lines 387-422): no rows or no
columns emits nothing; otherwise an `add_table(num_rows, num_cols)` grid
of empty cells is created and filled. -/
def emitTable (env : Env) (rows : List (List Cell × Bool)) (st : BState) (iExit : Nat) : BRes :=
  if rows.isEmpty then .ok (st, iExit)
  else
    let numCols := maxRowWidth rows
    let numRows := rows.length
    if numCols = 0 ∨ numRows = 0 then .ok (st, iExit)
    else
      let g0 := List.replicate numRows (List.replicate numCols (none : Option CellFill))
      let (g, err) := fillAllRows env numCols rows 0 g0
      let st1 := { st with doc := st.doc ++ [DEv.tableB numRows numCols g] }
      match err with
      | some e => .error (e, st1)
      | none => .ok (st1, iExit)

/-- `_handle_table` (lines 337-422). -/
def handleTable (env : Env) (tokens : List Token) (i : Nat) (st : BState) : BRes :=
  let (rows, iExit) := collectTableRows tokens (i + 1) [] [] false
  emitTable env rows st iExit

/- ═══════════════════════ _handle_footnote_block ═══════════════════════ -/

/-- The loop of `_handle_footnote_block` (lines 435-466). -/
def fnLoop (env : Env) (tokens : List Token) (i : Nat) (depth : Int) (st : BState) : BRes :=
  if h : i < tokens.length ∧ depth > 0 then
    let t := (tokens.getD i defTok).type
    if t = "footnote_block_open" then fnLoop env tokens (i + 1) (depth + 1) st
    else if t = "footnote_block_close" then
      if depth - 1 = 0 then .ok (st, i + 1)
      else fnLoop env tokens (i + 1) (depth - 1) st
    else if t = "footnote_open" then fnLoop env tokens (i + 1) depth st
    else if t = "footnote_close" then fnLoop env tokens (i + 1) depth st
    else if t = "paragraph_open" then
      let i1 := i + 1
      if i1 < tokens.length ∧ (tokens.getD i1 defTok).type = "inline" then
        let inl := tokens.getD i1 defTok
        let i2 := i1 + 1
        let (runs, err) := if inl.children.isEmpty then ([], none) else processInline env inl.children
        let st1 := { st with doc := st.doc ++ [DEv.fnParaB] ++ runs.map DEv.run }
        match err with
        | some e => .error (e, st1)
        | none => fnLoop env tokens (skipClose tokens i2 "paragraph_close") depth st1
      else fnLoop env tokens (skipClose tokens i1 "paragraph_close") depth st
    else fnLoop env tokens (i + 1) depth st
  else .ok (st, i)
termination_by tokens.length - i
decreasing_by
  all_goals try simp only [skipClose]
  all_goals repeat' split
  all_goals try simp_all
  all_goals omega

/-- `_handle_footnote_block` (lines 424-467): horizontal rule, the
"Chú thích" label, then the footnote paragraphs. -/
def handleFootnoteBlock (env : Env) (tokens : List Token) (i : Nat) (st : BState) : BRes :=
  fnLoop env tokens (i + 1) 1 { st with doc := st.doc ++ [DEv.hrB, DEv.fnTitle] }

/- ═══════════════════════ blockquote collection ═══════════════════════ -/

/-- The inner-token collection loop of `_handle_blockquote`
(lines 321-331): gather everything up to the matching close (tracking a
local nesting counter), returning the collected tokens and exit index.
The `fuel` argument is the loop's termination measure, made explicit;
callers pass `tokens.length`, which the index-incrementing loop can
never exhaust before its own exit condition fires. -/
def collectBQ (tokens : List Token) : Nat → Nat → Int → List Token → List Token × Nat
  | 0, i, _, inner => (inner, i)
  | fuel + 1, i, depth, inner =>
    if i < tokens.length then
      let tok := tokens.getD i defTok
      if tok.type = "blockquote_open" then collectBQ tokens fuel (i + 1) (depth + 1) (inner ++ [tok])
      else if tok.type = "blockquote_close" then
        if depth - 1 = 0 then (inner, i + 1)
        else collectBQ tokens fuel (i + 1) (depth - 1) (inner ++ [tok])
      else collectBQ tokens fuel (i + 1) depth (inner ++ [tok])
    else (inner, i)

/- ═══════════════════════ list-item plain steps ═══════════════════════ -/

/-- The bullet palette (line 267), indexed by `min(depth, len-1)`. -/
def bulletFor (depth : Int) : String :=
  ["•", "◦", "▪", "▹", "•", "◦"].getD (min depth 5).toNat "•"

/-- The non-recursive branches of the list-item inner loop
(lines 249-301): an item paragraph (with bullet/number marker), a code
fence, a math block, or a skipped token. -/
def itemPlainStep (env : Env) (tokens : List Token) (i : Nat) (st : BState)
    (ordered : Bool) (depth : Int) : BRes :=
  let tok := tokens.getD i defTok
  let t := tok.type
  if t = "paragraph_open" then
    let (inlineTok, i2) := grabInline tokens (i + 1)
    let i3 := skipClose tokens i2 "paragraph_close"
    let marker : DEv :=
      if ordered then
        DEv.markerRun (toString ((dictGet depth st.orderedCounters).getD 1) ++ ". ") true
      else
        DEv.markerRun (bulletFor depth ++ "  ") false
    let (runs, err) := inlineRunsOf env inlineTok
    let st1 := { st with doc := st.doc ++ [DEv.listItemB (depth + 1), marker] ++ runs.map DEv.run }
    match err with
    | some e => .error (e, st1)
    | none =>
      let st2 :=
        if st1.blockquoteDepth > 0 then
          { st1 with doc := st1.doc ++ [DEv.bqStyled st1.blockquoteDepth] }
        else st1
      .ok (st2, i3)
  else if t = "fence" ∨ t = "code_block" then
    match handleCodeBlock env tok st with
    | .error es => .error es
    | .ok st1 => .ok (st1, i + 1)
  else if t = "math_block" ∨ t = "math_block_eqno" then
    .ok (handleMathBlock env tok st, i + 1)
  else .ok (st, i + 1)

/- ═══════════════════════ top-level dispatch ═══════════════════════ -/

/-- The non-recursive branches of `_process_tokens` (lines 85-123):
every token type except the two list opens and `blockquote_open`. -/
def dispatchPlain (env : Env) (tokens : List Token) (i : Nat) (st : BState) : BRes :=
  let tok := tokens.getD i defTok
  let t := tok.type
  if t = "heading_open" then handleHeading env tokens i st
  else if t = "paragraph_open" then handleParagraph env tokens i st
  else if t = "fence" ∨ t = "code_block" then
    match handleCodeBlock env tok st with
    | .error es => .error es
    | .ok st1 => .ok (st1, i + 1)
  else if t = "math_block" ∨ t = "math_block_eqno" then
    .ok (handleMathBlock env tok st, i + 1)
  else if t = "table_open" then handleTable env tokens i st
  else if t = "hr" then .ok ({ st with doc := st.doc ++ [DEv.hrB] }, i + 1)
  else if t = "html_block" then .ok (st, i + 1)
  else if t = "front_matter" then .ok (st, i + 1)
  else if t = "footnote_block_open" then handleFootnoteBlock env tokens i st
  else .ok (st, i + 1)

mutual
/-- `_process_tokens` (lines 85-123), fuelled: `none` means the fuel ran
out (the extracted termination measure); `some` carries the Python
outcome — normal completion or a propagating exception. -/
def processTokens (env : Env) : Nat → List Token → Nat → BState →
    Option (Except (String × BState) BState)
  | 0, _, _, _ => none
  | fuel + 1, tokens, i, st =>
    if i < tokens.length then
      let t := (tokens.getD i defTok).type
      if t = "bullet_list_open" then
        match handleList env fuel tokens i st false with
        | none => none
        | some (.error es) => some (.error es)
        | some (.ok (st1, i1)) => processTokens env fuel tokens i1 st1
      else if t = "ordered_list_open" then
        match handleList env fuel tokens i st true with
        | none => none
        | some (.error es) => some (.error es)
        | some (.ok (st1, i1)) => processTokens env fuel tokens i1 st1
      else if t = "blockquote_open" then
        match handleBlockquote env fuel tokens i st with
        | none => none
        | some (.error es) => some (.error es)
        | some (.ok (st1, i1)) => processTokens env fuel tokens i1 st1
      else
        match dispatchPlain env tokens i st with
        | .error es => some (.error es)
        | .ok (st1, i1) => processTokens env fuel tokens i1 st1
    else some (.ok st)
termination_by structural fuel => fuel

/-- `_handle_list` (lines 224-313): push a list level, zero the ordered
counter at this depth, run the item loop, then pop the level and delete
the counter entry. -/
def handleList (env : Env) : Nat → List Token → Nat → BState → Bool → Option BRes
  | 0, _, _, _, _ => none
  | fuel + 1, tokens, i, st, ordered =>
    let st1 := { st with listDepth := st.listDepth + 1 }
    let depth := st1.listDepth - 1
    let st2 :=
      if ordered then { st1 with orderedCounters := dictInsert depth 0 st1.orderedCounters }
      else st1
    match listLoop env fuel tokens (i + 1) st2 ordered depth with
    | none => none
    | some (.error es) => some (.error es)
    | some (.ok (st3, i3)) =>
      let st4 := { st3 with listDepth := st3.listDepth - 1 }
      let st5 :=
        if ordered && dictHas depth st4.orderedCounters then
          { st4 with orderedCounters := dictErase depth st4.orderedCounters }
        else st4
      some (.ok (st5, i3))
termination_by structural fuel => fuel

/-- The `while` loop of `_handle_list` (lines 234-307): item opens bump
the ordered counter and run the item loop; the matching close exits. -/
def listLoop (env : Env) : Nat → List Token → Nat → BState → Bool → Int → Option BRes
  | 0, _, _, _, _, _ => none
  | fuel + 1, tokens, i, st, ordered, depth =>
    if i < tokens.length then
      let t := (tokens.getD i defTok).type
      if t = "bullet_list_close" ∨ t = "ordered_list_close" then some (.ok (st, i + 1))
      else if t = "list_item_open" then
        let st1 :=
          if ordered then
            { st with orderedCounters :=
                dictInsert depth ((dictGet depth st.orderedCounters).getD 0 + 1) st.orderedCounters }
          else st
        match itemLoop env fuel tokens (i + 1) st1 ordered depth with
        | none => none
        | some (.error es) => some (.error es)
        | some (.ok (st2, i2)) =>
          listLoop env fuel tokens (skipClose tokens i2 "list_item_close") st2 ordered depth
      else listLoop env fuel tokens (i + 1) st ordered depth
    else some (.ok (st, i))
termination_by structural fuel => fuel

/-- The inner item-content loop of `_handle_list` (lines 248-301). -/
def itemLoop (env : Env) : Nat → List Token → Nat → BState → Bool → Int → Option BRes
  | 0, _, _, _, _, _ => none
  | fuel + 1, tokens, i, st, ordered, depth =>
    if i < tokens.length ∧ (tokens.getD i defTok).type ≠ "list_item_close" then
      let t := (tokens.getD i defTok).type
      if t = "bullet_list_open" then
        match handleList env fuel tokens i st false with
        | none => none
        | some (.error es) => some (.error es)
        | some (.ok (st1, i1)) => itemLoop env fuel tokens i1 st1 ordered depth
      else if t = "ordered_list_open" then
        match handleList env fuel tokens i st true with
        | none => none
        | some (.error es) => some (.error es)
        | some (.ok (st1, i1)) => itemLoop env fuel tokens i1 st1 ordered depth
      else if t = "blockquote_open" then
        match handleBlockquote env fuel tokens i st with
        | none => none
        | some (.error es) => some (.error es)
        | some (.ok (st1, i1)) => itemLoop env fuel tokens i1 st1 ordered depth
      else
        match itemPlainStep env tokens i st ordered depth with
        | .error es => some (.error es)
        | .ok (st1, i1) => itemLoop env fuel tokens i1 st1 ordered depth
    else some (.ok (st, i))
termination_by structural fuel => fuel

/-- `_handle_blockquote` (lines 315-335): bump the depth, collect the
inner tokens, re-enter the dispatcher on them, then decrement the depth.
The decrement is only on the normal path — a propagating exception skips
it, exactly as in the source. -/
def handleBlockquote (env : Env) : Nat → List Token → Nat → BState → Option BRes
  | 0, _, _, _ => none
  | fuel + 1, tokens, i, st =>
    let st1 := { st with blockquoteDepth := st.blockquoteDepth + 1 }
    let (inner, iExit) := collectBQ tokens tokens.length (i + 1) 1 []
    match processTokens env fuel inner 0 st1 with
    | none => none
    | some (.error es) => some (.error es)
    | some (.ok st2) =>
      some (.ok ({ st2 with blockquoteDepth := st2.blockquoteDepth - 1 }, iExit))
termination_by structural fuel => fuel
end

/- ═══════════════════════ Concrete collaborators and inputs ═══════════════════════ -/

/-- A latex2mathml collaborator that always raises (e.g. on the
unbalanced-brace input `x^{`). -/
def convFail : LatexConv := fun _ => .error "latex2mathml error"

/-- An XML parser collaborator that always raises. -/
def parseFail : XmlParse := fun _ => .error "lxml error"

/-- A concrete environment: failing math collaborators, no images on
disk, native hyperlinks succeed. -/
def env0 : Env := ⟨convFail, parseFail, fun _ => false, fun _ => false, fun _ => true, "."⟩

/-- A `footnote_ref` token whose `meta` lacks a numeric `"id"` entry. -/
def ftRefNoId : Token := T0 "footnote_ref"

/-- A paragraph whose inline content holds the bad footnote reference. -/
def badParaToks : List Token :=
  [T0 "paragraph_open", Tch "inline" [ftRefNoId], T0 "paragraph_close"]

/-- A blockquote wrapping the bad paragraph: processing its collected
inner content raises. -/
def badBqToks : List Token :=
  [T0 "blockquote_open"] ++ badParaToks ++ [T0 "blockquote_close"]

/-- A well-formed blockquote around one plain paragraph. -/
def goodBqToks : List Token :=
  [T0 "blockquote_open", T0 "paragraph_open", Tch "inline" [Tc "text" "X"],
   T0 "paragraph_close", T0 "blockquote_close"]

/-- A two-item ordered list. -/
def orderedToks : List Token :=
  [T0 "ordered_list_open", T0 "list_item_open", T0 "paragraph_open",
   Tch "inline" [Tc "text" "A"], T0 "paragraph_close", T0 "list_item_close",
   T0 "list_item_open", T0 "paragraph_open", Tch "inline" [Tc "text" "B"],
   T0 "paragraph_close", T0 "list_item_close", T0 "ordered_list_close"]

/-- Ragged table rows with cell-counts [3, 2, 3] (claim C8's example). -/
def raggedRows : List (List Cell × Bool) :=
  [(List.replicate 3 ⟨none, false, none⟩, false),
   (List.replicate 2 ⟨none, false, none⟩, false),
   (List.replicate 3 ⟨none, false, none⟩, false)]

/- ═══════════════════════ Lemmas: pyReplace / pyStrip ═══════════════════════ -/

lemma infix_append_left (w : List Char) {t l : List Char} (h : t <:+: l) :
    t <:+: w ++ l := by
  obtain ⟨a, b, rfl⟩ := h
  exact ⟨w ++ a, b, by simp⟩

lemma isPrefixOf_cons_neg {a c : Char} {pt cs : List Char} (h : c ≠ a) :
    ((a :: pt).isPrefixOf (c :: cs)) = false := by
  simp only [List.isPrefixOf, Bool.and_eq_false_iff, beq_eq_false_iff_ne, ne_eq]
  exact Or.inl (fun h2 => h (h2.symm))

lemma pyReplace_cons_neg {p r : List Char} {c : Char} {cs : List Char}
    (h : p.isPrefixOf (c :: cs) = false) :
    pyReplace p r (c :: cs) = c :: pyReplace p r cs := by
  rw [pyReplace]
  simp [h]

lemma pyReplace_cons_pos {p r : List Char} {c : Char} {cs : List Char}
    (h : p.isPrefixOf (c :: cs) = true) (hp : p ≠ []) :
    pyReplace p r (c :: cs) = r ++ pyReplace p r (cs.drop (p.length - 1)) := by
  rw [pyReplace]
  simp [h, hp]

/-- A segment without backslashes passes through `pyReplace` untouched
when the needle starts with a backslash. -/
lemma pyReplace_append_noBS (pt r : List Char) :
    ∀ (w v : List Char), (∀ c ∈ w, c ≠ '\\') →
    pyReplace ('\\' :: pt) r (w ++ v) = w ++ pyReplace ('\\' :: pt) r v := by
  intro w
  induction w with
  | nil => intro v _; rfl
  | cons c w ih =>
    intro v hw
    have hc : c ≠ '\\' := hw c (by simp)
    rw [List.cons_append, pyReplace_cons_neg (isPrefixOf_cons_neg hc),
      ih v (fun a ha => hw a (by simp [ha])), List.cons_append]

/-- Replacing `\R` inside an occurrence of `\Rightarrow` produces
`\mathbb{R}ightarrow` (base case: the occurrence is at the head). -/
lemma rep_creates_base (v : List Char) :
    ('\\' :: "mathbb{R}ightarrow".toList) <:+:
      pyReplace ('\\' :: ['R']) "\\mathbb{R}".toList
        (('\\' :: 'R' :: "ightarrow".toList) ++ v) := by
  rw [List.cons_append, List.cons_append,
    pyReplace_cons_pos (by rfl) (by simp)]
  simp only [List.length_cons, List.length_nil, Nat.add_sub_cancel, List.drop_succ_cons,
    List.drop_zero]
  rw [pyReplace_append_noBS ['R'] "\\mathbb{R}".toList "ightarrow".toList v (by decide)]
  refine ⟨[], pyReplace ('\\' :: ['R']) "\\mathbb{R}".toList v, ?_⟩
  rw [List.nil_append, ← List.append_assoc]
  rfl

/-- Every occurrence of `\Rightarrow` gives rise to an occurrence of
`\mathbb{R}ightarrow` after the `\R` replacement. -/
lemma rep_creates_aux :
    ∀ n (u v : List Char), u.length ≤ n →
      ('\\' :: "mathbb{R}ightarrow".toList) <:+:
        pyReplace ('\\' :: ['R']) "\\mathbb{R}".toList
          (u ++ ('\\' :: 'R' :: "ightarrow".toList) ++ v) := by
  intro n
  induction n with
  | zero =>
    intro u v hu
    have hu0 : u = [] := List.eq_nil_of_length_eq_zero (Nat.le_zero.mp hu)
    subst hu0
    simpa using rep_creates_base v
  | succ n ih =>
    intro u v hu
    cases u with
    | nil => simpa using rep_creates_base v
    | cons c u' =>
      have goalEq : (c :: u') ++ ('\\' :: 'R' :: "ightarrow".toList) ++ v
          = c :: (u' ++ ('\\' :: 'R' :: "ightarrow".toList) ++ v) := by simp
      rw [goalEq]
      by_cases hm :
          (('\\' :: ['R']).isPrefixOf
            (c :: (u' ++ ('\\' :: 'R' :: "ightarrow".toList) ++ v))) = true
      · have hm2 := hm
        simp only [List.isPrefixOf, Bool.and_eq_true, beq_iff_eq] at hm2
        obtain ⟨hc, hrest⟩ := hm2
        subst hc
        cases u' with
        | nil => simp [List.isPrefixOf] at hrest
        | cons h u'' =>
          have hh : h = 'R' := by
            simp only [List.cons_append, List.isPrefixOf, Bool.and_eq_true,
              beq_iff_eq] at hrest
            exact hrest.1.symm
          subst hh
          rw [pyReplace_cons_pos hm (by simp)]
          have e2 : ('R' :: u'') ++ ('\\' :: 'R' :: "ightarrow".toList) ++ v
              = 'R' :: (u'' ++ ('\\' :: 'R' :: "ightarrow".toList) ++ v) := by simp
          rw [e2]
          simp only [List.length_cons, List.length_nil, Nat.add_sub_cancel,
            List.drop_succ_cons, List.drop_zero]
          exact infix_append_left _ (ih u'' v (by simp at hu; omega))
      · have hmf : (('\\' :: ['R']).isPrefixOf
            (c :: (u' ++ ('\\' :: 'R' :: "ightarrow".toList) ++ v))) = false := by
          revert hm
          cases (('\\' :: ['R']).isPrefixOf
            (c :: (u' ++ ('\\' :: 'R' :: "ightarrow".toList) ++ v))) <;> simp
        rw [pyReplace_cons_neg hmf]
        exact List.infix_cons (ih u' v (by simp at hu; omega))

/-- Replacing a two-character needle `\x` with `x ≠ 'm'`, `x ≠ '\'`
preserves occurrences of `\mathbb{R}ightarrow`. -/
lemma rep_preserves_aux (x : Char) (r : List Char) (hx1 : x ≠ 'm') (hx2 : x ≠ '\\') :
    ∀ n (u v : List Char), u.length ≤ n →
      ('\\' :: "mathbb{R}ightarrow".toList) <:+:
        pyReplace ('\\' :: [x]) r
          (u ++ ('\\' :: "mathbb{R}ightarrow".toList) ++ v) := by
  have base : ∀ v : List Char,
      ('\\' :: "mathbb{R}ightarrow".toList) <:+:
        pyReplace ('\\' :: [x]) r (('\\' :: "mathbb{R}ightarrow".toList) ++ v) := by
    intro v
    have e : "mathbb{R}ightarrow".toList ++ v = 'm' :: ("athbb{R}ightarrow".toList ++ v) := rfl
    have hpre : (('\\' :: [x]).isPrefixOf ('\\' :: ("mathbb{R}ightarrow".toList ++ v))) = false := by
      rw [e]
      simp only [List.isPrefixOf, Bool.and_eq_false_iff, beq_eq_false_iff_ne, ne_eq]
      exact Or.inr (Or.inl (fun h2 => hx1 h2))
    rw [List.cons_append, pyReplace_cons_neg hpre,
      pyReplace_append_noBS [x] r "mathbb{R}ightarrow".toList v (by decide)]
    exact ⟨[], pyReplace ('\\' :: [x]) r v, by simp⟩
  intro n
  induction n with
  | zero =>
    intro u v hu
    have hu0 : u = [] := List.eq_nil_of_length_eq_zero (Nat.le_zero.mp hu)
    subst hu0
    simpa using base v
  | succ n ih =>
    intro u v hu
    cases u with
    | nil => simpa using base v
    | cons c u' =>
      have goalEq : (c :: u') ++ ('\\' :: "mathbb{R}ightarrow".toList) ++ v
          = c :: (u' ++ ('\\' :: "mathbb{R}ightarrow".toList) ++ v) := by simp
      rw [goalEq]
      by_cases hm :
          (('\\' :: [x]).isPrefixOf
            (c :: (u' ++ ('\\' :: "mathbb{R}ightarrow".toList) ++ v))) = true
      · have hm2 := hm
        simp only [List.isPrefixOf, Bool.and_eq_true, beq_iff_eq] at hm2
        obtain ⟨hc, hrest⟩ := hm2
        subst hc
        cases u' with
        | nil =>
          simp only [List.nil_append, List.isPrefixOf, Bool.and_eq_true, beq_iff_eq] at hrest
          exact absurd hrest.1 hx2
        | cons h u'' =>
          rw [pyReplace_cons_pos hm (by simp)]
          have e2 : (h :: u'') ++ ('\\' :: "mathbb{R}ightarrow".toList) ++ v
              = h :: (u'' ++ ('\\' :: "mathbb{R}ightarrow".toList) ++ v) := by simp
          rw [e2]
          simp only [List.length_cons, List.length_nil, Nat.add_sub_cancel,
            List.drop_succ_cons, List.drop_zero]
          exact infix_append_left _ (ih u'' v (by simp at hu; omega))
      · have hmf : (('\\' :: [x]).isPrefixOf
            (c :: (u' ++ ('\\' :: "mathbb{R}ightarrow".toList) ++ v))) = false := by
          revert hm
          cases (('\\' :: [x]).isPrefixOf
            (c :: (u' ++ ('\\' :: "mathbb{R}ightarrow".toList) ++ v))) <;> simp
        rw [pyReplace_cons_neg hmf]
        exact List.infix_cons (ih u' v (by simp at hu; omega))

/-- Wrapper: one preservation step over a whole string. -/
lemma rep_preserves (x : Char) (r : List Char) (hx1 : x ≠ 'm') (hx2 : x ≠ '\\')
    {l : List Char} (h : ('\\' :: "mathbb{R}ightarrow".toList) <:+: l) :
    ('\\' :: "mathbb{R}ightarrow".toList) <:+: pyReplace ('\\' :: [x]) r l := by
  obtain ⟨u, v, huv⟩ := h
  rw [← huv]
  exact rep_preserves_aux x r hx1 hx2 u.length u v (le_refl _)

/-- A whitespace-free occurrence survives `dropWhile isWhitespace`. -/
lemma infix_dropWhile_noWS {t : List Char} (ht : t ≠ [])
    (hws : ∀ c ∈ t, ¬ c.isWhitespace) :
    ∀ l, t <:+: l → t <:+: l.dropWhile Char.isWhitespace := by
  intro l
  induction l with
  | nil => intro h; exact absurd (List.eq_nil_of_infix_nil h) ht
  | cons c l ih =>
    intro h
    by_cases hc : Char.isWhitespace c
    · rw [List.dropWhile_cons, if_pos hc]
      apply ih
      rcases List.infix_cons_iff.mp h with hpre | hinf
      · exfalso
        obtain ⟨w, hw⟩ := hpre
        cases t with
        | nil => exact ht rfl
        | cons a t' =>
          have ha : a = c := by
            rw [List.cons_append] at hw
            exact (List.cons.injEq _ _ _ _ ▸ hw).1
          exact hws a (by simp) (ha ▸ hc)
      · exact hinf
    · rw [List.dropWhile_cons, if_neg hc]
      exact h

/-- A whitespace-free occurrence survives `str.strip()`. -/
lemma infix_pyStrip_noWS {t : List Char} (ht : t ≠ [])
    (hws : ∀ c ∈ t, ¬ c.isWhitespace) {l : List Char} (h : t <:+: l) :
    t <:+: pyStrip l := by
  unfold pyStrip
  have h1 := infix_dropWhile_noWS ht hws l h
  have h2 := h1.reverse
  have h3 := infix_dropWhile_noWS (t := t.reverse)
    (by simpa using ht) (fun c hc => hws c (List.mem_reverse.mp hc)) _ h2
  have h4 := h3.reverse
  simpa using h4

/-- C10: the shorthand-macro normalization step replaces every occurrence
of the substrings `\R`, `\N`, `\Z`, `\Q`, `\C` by plain textual
substitution anywhere in the input, including inside longer commands:
every input containing `\Rightarrow` is rewritten by `_clean_latex` to
contain `\mathbb{R}ightarrow` before parsing. -/
theorem clean_latex_rewrites_Rightarrow (s : String)
    (h : "\\Rightarrow".toList <:+: s.toList) :
    "\\mathbb{R}ightarrow".toList <:+: (cleanLatex s).toList := by
  show "\\mathbb{R}ightarrow".toList <:+:
    pyReplace "\\C".toList "\\mathbb{C}".toList
      (pyReplace "\\Q".toList "\\mathbb{Q}".toList
        (pyReplace "\\Z".toList "\\mathbb{Z}".toList
          (pyReplace "\\N".toList "\\mathbb{N}".toList
            (pyReplace "\\R".toList "\\mathbb{R}".toList (pyStrip s.toList)))))
  have h1 : "\\Rightarrow".toList <:+: pyStrip s.toList :=
    infix_pyStrip_noWS (by decide) (by decide) h
  obtain ⟨u, v, huv⟩ := h1
  have h2 : ('\\' :: "mathbb{R}ightarrow".toList) <:+:
      pyReplace "\\R".toList "\\mathbb{R}".toList (pyStrip s.toList) := by
    rw [← huv]
    exact rep_creates_aux u.length u v (le_refl _)
  exact rep_preserves 'C' "\\mathbb{C}".toList (by decide) (by decide)
    (rep_preserves 'Q' "\\mathbb{Q}".toList (by decide) (by decide)
      (rep_preserves 'Z' "\\mathbb{Z}".toList (by decide) (by decide)
        (rep_preserves 'N' "\\mathbb{N}".toList (by decide) (by decide) h2)))

/-- Witness for C10 at the concrete input `A \Rightarrow B`. -/
theorem clean_latex_rewrites_Rightarrow_witness :
    ("\\Rightarrow".toList <:+: "A \\Rightarrow B".toList) ∧
    "\\mathbb{R}ightarrow".toList <:+: (cleanLatex "A \\Rightarrow B").toList := by
  have h : "\\Rightarrow".toList <:+: "A \\Rightarrow B".toList :=
    ⟨"A ".toList, " B".toList, by decide⟩
  exact ⟨h, clean_latex_rewrites_Rightarrow _ h⟩

/- ═══════════════════════ C7: incomplete nodes ═══════════════════════ -/

/-- C7: a structurally recognized but incomplete math node — an `mfrac`,
`msup` or `msub` with fewer than two children, or an `msubsup` with fewer
than three — translates to nothing (`none`), not an error. -/
theorem incomplete_node_skipped (a : List (String × String)) (x tl : Option String)
    (cs : List XmlEl) :
    (cs.length < 2 →
      convertEl (.el "mfrac" a x tl cs) = none ∧
      convertEl (.el "msup" a x tl cs) = none ∧
      convertEl (.el "msub" a x tl cs) = none) ∧
    (cs.length < 3 → convertEl (.el "msubsup" a x tl cs) = none) := by
  refine ⟨fun h => ⟨?_, ?_, ?_⟩, fun h => ?_⟩ <;>
    · rw [convertEl]
      simp [h]

/-- Witness for C7 at concrete incomplete nodes. -/
theorem incomplete_node_skipped_witness :
    convertEl (.el "mfrac" [] none none []) = none ∧
    convertEl (.el "msubsup" [] none none [dummyEl, dummyEl]) = none :=
  ⟨((incomplete_node_skipped [] none none []).1 (by decide)).1,
   (incomplete_node_skipped [] none none [dummyEl, dummyEl]).2 (by decide)⟩

/- ═══════════════════════ C1: error containment ═══════════════════════ -/

/-- C1: the math translator never raises past its boundary.
`latex_to_omml` (and `latex_to_omml_para`) agree with the catch-free
pipeline whenever the collaborators succeed, and return the failure
signal `none` — rather than propagating — whenever a collaborator
raises; in particular every call returns a tree or `none`. -/
theorem math_translator_catches_errors (conv : LatexConv) (parse : XmlParse) (s : String) :
    (∀ v, latexToOmmlNoCatch conv parse s = .ok v → latex_to_omml conv parse s = v) ∧
    (∀ e, latexToOmmlNoCatch conv parse s = .error e → latex_to_omml conv parse s = none) ∧
    (∀ v, latexToOmmlNoCatch conv parse s = .ok v →
      latex_to_omml_para conv parse s = v.map (fun o => XmlEl.el "oMathPara" [] none none [o])) ∧
    (∀ e, latexToOmmlNoCatch conv parse s = .error e →
      latex_to_omml_para conv parse s = none) := by
  unfold latexToOmmlNoCatch latex_to_omml_para latex_to_omml latex_to_mathml mathml_to_omml
  by_cases hs : s = "" ∨ pyStripStr s = ""
  · simp [hs]
  · simp only [if_neg hs]
    cases hconv : conv (cleanLatex s) with
    | error e => simp [hconv]
    | ok ms =>
      cases hparse : parse (mathmlNsFix ms) with
      | error e => simp [hconv, hparse]
      | ok root => cases hce : convertEl root <;> simp [hconv, hparse, hce]

/-- Witness for C1: deliberately malformed notation (unbalanced braces)
on which the converter raises yields the failure signal, not an error. -/
theorem math_translator_catches_errors_witness :
    latexToOmmlNoCatch convFail parseFail "x^\x7b" = .error "latex2mathml error" ∧
    latex_to_omml convFail parseFail "x^\x7b" = none :=
  ⟨rfl, (math_translator_catches_errors convFail parseFail "x^\x7b").2.1 _ rfl⟩

/- ═══════════════════════ C5: flattening invariant ═══════════════════════ -/

/-- `flatInto` on an `oMath` parent appends exactly `flatChildren`. -/
lemma flatInto_oMath (a : List (String × String)) (x tl : Option String) :
    ∀ (rs : List (Option XmlEl)) (cs : List XmlEl),
      flatInto (.el "oMath" a x tl cs) rs = .el "oMath" a x tl (cs ++ flatChildren rs) := by
  intro rs
  induction rs with
  | nil => intro cs; simp [flatInto, flatChildren]
  | cons r rs ih =>
    intro cs
    cases r with
    | none =>
      simp only [flatInto, List.foldl_cons] at *
      rw [ih cs]
      simp [flatChildren]
    | some c =>
      obtain ⟨ct, ca, cx, ctl, cc⟩ := c
      simp only [flatInto, List.foldl_cons] at *
      by_cases hc : ct = "oMath"
      · rw [show appendFlattened (XmlEl.el "oMath" a x tl cs) (XmlEl.el ct ca cx ctl cc)
            = XmlEl.el "oMath" a x tl (cs ++ cc) by
          simp [appendFlattened, hc, XmlEl.tag, setChildren, XmlEl.children]]
        rw [ih]
        simp [flatChildren, hc, XmlEl.tag, XmlEl.children]
      · rw [show appendFlattened (XmlEl.el "oMath" a x tl cs) (XmlEl.el ct ca cx ctl cc)
            = XmlEl.el "oMath" a x tl (cs ++ [XmlEl.el ct ca cx ctl cc]) by
          simp [appendFlattened, hc, XmlEl.tag, setChildren, XmlEl.children]]
        rw [ih]
        simp [flatChildren, hc, XmlEl.tag, XmlEl.children]

/-- Membership in `flatChildren`: each element is either a non-group
result itself, or a child of a group result. -/
lemma mem_flatChildren {rs : List (Option XmlEl)} {x : XmlEl}
    (hx : x ∈ flatChildren rs) :
    ∃ c, some c ∈ rs ∧ ((c.tag ≠ "oMath" ∧ x = c) ∨ (c.tag = "oMath" ∧ x ∈ c.children)) := by
  induction rs with
  | nil => simp [flatChildren] at hx
  | cons r rs ih =>
    cases r with
    | none =>
      simp only [flatChildren, List.foldr_cons] at hx
      obtain ⟨c, hc1, hc2⟩ := ih hx
      exact ⟨c, by simp [hc1], hc2⟩
    | some c =>
      simp only [flatChildren, List.foldr_cons] at hx
      by_cases hc : c.tag = "oMath"
      · rw [if_pos hc] at hx
        rcases List.mem_append.mp hx with h1 | h2
        · exact ⟨c, by simp, Or.inr ⟨hc, h1⟩⟩
        · obtain ⟨d, hd1, hd2⟩ := ih h2
          exact ⟨d, by simp [hd1], hd2⟩
      · rw [if_neg hc] at hx
        rcases List.mem_append.mp hx with h1 | h2
        · simp only [List.mem_singleton] at h1
          exact ⟨c, by simp, Or.inl ⟨hc, h1⟩⟩
        · obtain ⟨d, hd1, hd2⟩ := ih h2
          exact ⟨d, by simp [hd1], hd2⟩

/-- When every group result in `rs` has group-free children, the
flattened child list contains no group node. -/
lemma flatChildren_no_oMath {rs : List (Option XmlEl)}
    (h : ∀ o ∈ rs, ∀ c, o = some c → c.tag = "oMath" → ∀ y ∈ c.children, y.tag ≠ "oMath") :
    ∀ x ∈ flatChildren rs, x.tag ≠ "oMath" := by
  intro x hx
  obtain ⟨c, hc1, hc2⟩ := mem_flatChildren hx
  rcases hc2 with ⟨hne, rfl⟩ | ⟨heq, hmem⟩
  · exact hne
  · exact h _ hc1 c rfl heq x hmem

/-- Each result in `convertMany cs` is the conversion of a member. -/
lemma mem_convertMany : ∀ {cs : List XmlEl} {o : Option XmlEl},
    o ∈ convertMany cs → ∃ c ∈ cs, o = convertEl c := by
  intro cs
  induction cs with
  | nil => intro o ho; simp [convertMany] at ho
  | cons c cs ih =>
    intro o ho
    rw [convertMany] at ho
    rcases List.mem_cons.mp ho with h1 | h2
    · exact ⟨c, by simp, h1⟩
    · obtain ⟨d, hd1, hd2⟩ := ih h2
      exact ⟨d, by simp [hd1], hd2⟩

/-- `mrowRest` only attaches group-free children to the group it
returns, given that every group result among `rs` has group-free
children. -/
lemma mrowRest_no_nested {children : List XmlEl} {childTags : List String}
    {rs : List (Option XmlEl)} {r : XmlEl}
    (h : ∀ o ∈ rs, ∀ c, o = some c → c.tag = "oMath" → ∀ y ∈ c.children, y.tag ≠ "oMath")
    (hr : mrowRest children childTags rs = some r) (ht : r.tag = "oMath") :
    ∀ y ∈ r.children, y.tag ≠ "oMath" := by
  have hTake : ∀ n, ∀ o ∈ rs.take n, ∀ c, o = some c → c.tag = "oMath" →
      ∀ y ∈ c.children, y.tag ≠ "oMath" :=
    fun n o ho => h o (List.mem_of_mem_take ho)
  have hDrop : ∀ n, ∀ o ∈ rs.drop n, ∀ c, o = some c → c.tag = "oMath" →
      ∀ y ∈ c.children, y.tag ≠ "oMath" :=
    fun n o ho => h o (List.mem_of_mem_drop ho)
  simp only [mrowRest] at hr
  split at hr
  next idx heq =>
    split_ifs at hr <;>
      (simp only [Option.some.injEq] at hr
       subst hr
       simp only [oMathEmpty, flatInto_oMath, setChildren, XmlEl.children, List.nil_append]
       first
       | exact flatChildren_no_oMath h
       | (intro y hy
          rcases List.mem_append.mp hy with h1 | h2
          · rcases List.mem_append.mp h1 with h3 | h4
            · exact flatChildren_no_oMath (hTake _) y h3
            · simp only [List.mem_singleton] at h4
              subst h4
              simp [dElem, XmlEl.tag]
          · exact flatChildren_no_oMath (hDrop _) y h2))
  next heq =>
    simp only [Option.some.injEq] at hr
    subst hr
    simp only [oMathEmpty, flatInto_oMath, XmlEl.children, List.nil_append]
    exact flatChildren_no_oMath h

/-- C5: the flattening invariant — whenever the translator attaches a
group result to a group parent its children are spliced directly in, so
no translated `oMath` group node ever has an `oMath` group node as a
direct child. -/
theorem translation_no_nested_groups :
    ∀ (m r : XmlEl), convertEl m = some r → r.tag = "oMath" →
      ∀ c ∈ r.children, c.tag ≠ "oMath" := by
  have main : ∀ (k : ℕ) (m : XmlEl), sizeOf m ≤ k → ∀ r, convertEl m = some r →
      r.tag = "oMath" → ∀ c ∈ r.children, c.tag ≠ "oMath" := by
    intro k
    induction k with
    | zero =>
      intro m hm
      exfalso
      cases m
      simp_arith at hm
    | succ k ih =>
      intro m hm r hr ht
      obtain ⟨tag, attrs, x, tl, children⟩ := m
      have hGood : ∀ o ∈ convertMany children, ∀ c, o = some c → c.tag = "oMath" →
          ∀ y ∈ c.children, y.tag ≠ "oMath" := by
        intro o ho c hoc hctag
        obtain ⟨ch, hch, rfl⟩ := mem_convertMany ho
        have hlt : sizeOf ch ≤ k := by
          have hlt1 : sizeOf ch < sizeOf children := List.sizeOf_lt_of_mem hch
          have hlt2 : sizeOf children < sizeOf (XmlEl.el tag attrs x tl children) := by
            simp_arith
          omega
        exact ih ch hlt c hoc hctag
      simp only [convertEl] at hr
      by_cases h1 : tag = "math"
      · rw [if_pos h1] at hr
        simp only [Option.some.injEq] at hr
        subst hr
        simp only [oMathEmpty, flatInto_oMath, XmlEl.children, List.nil_append]
        exact flatChildren_no_oMath hGood
      rw [if_neg h1] at hr
      by_cases h2 : tag = "mrow"
      · rw [if_pos h2] at hr
        split_ifs at hr <;>
          first
          | exact mrowRest_no_nested hGood hr ht
          | (simp only [Option.some.injEq] at hr
             subst hr
             simp [dElem, XmlEl.tag] at ht)
      rw [if_neg h2] at hr
      by_cases h3 : tag = "mi" ∨ tag = "mn" ∨ tag = "mo" ∨ tag = "mtext"
      · rw [if_pos h3] at hr
        split_ifs at hr <;>
          first
          | (simp only [Option.some.injEq] at hr
             subst hr
             simp [XmlEl.tag] at ht)
          | simp at hr
      rw [if_neg h3] at hr
      by_cases h4 : tag = "mfrac"
      · rw [if_pos h4] at hr
        split_ifs at hr <;>
          first
          | (simp only [Option.some.injEq] at hr
             subst hr
             simp [XmlEl.tag] at ht)
          | simp at hr
      rw [if_neg h4] at hr
      by_cases h5 : tag = "msqrt"
      · rw [if_pos h5] at hr
        simp only [Option.some.injEq] at hr
        subst hr
        simp [XmlEl.tag] at ht
      rw [if_neg h5] at hr
      by_cases h6 : tag = "mroot"
      · rw [if_pos h6] at hr
        simp only [Option.some.injEq] at hr
        subst hr
        simp [XmlEl.tag] at ht
      rw [if_neg h6] at hr
      by_cases h7 : tag = "msup"
      · rw [if_pos h7] at hr
        split_ifs at hr <;>
          first
          | (simp only [Option.some.injEq] at hr
             subst hr
             simp [XmlEl.tag] at ht)
          | simp at hr
      rw [if_neg h7] at hr
      by_cases h8 : tag = "msub"
      · rw [if_pos h8] at hr
        split_ifs at hr <;>
          first
          | (simp only [Option.some.injEq] at hr
             subst hr
             simp [XmlEl.tag] at ht)
          | simp at hr
      rw [if_neg h8] at hr
      by_cases h9 : tag = "msubsup"
      · rw [if_pos h9] at hr
        split_ifs at hr <;>
          first
          | (simp only [Option.some.injEq] at hr
             subst hr
             simp [XmlEl.tag] at ht)
          | simp at hr
      rw [if_neg h9] at hr
      by_cases h10 : tag = "mover"
      · rw [if_pos h10] at hr
        split_ifs at hr <;>
          first
          | (simp only [Option.some.injEq] at hr
             subst hr
             simp [XmlEl.tag] at ht)
          | simp at hr
      rw [if_neg h10] at hr
      by_cases h11 : tag = "munder"
      · rw [if_pos h11] at hr
        split_ifs at hr <;>
          first
          | (simp only [Option.some.injEq] at hr
             subst hr
             simp [XmlEl.tag] at ht)
          | simp at hr
      rw [if_neg h11] at hr
      by_cases h12 : tag = "munderover"
      · rw [if_pos h12] at hr
        split_ifs at hr <;>
          first
          | (simp only [Option.some.injEq] at hr
             subst hr
             simp [XmlEl.tag] at ht)
          | simp at hr
      rw [if_neg h12] at hr
      by_cases h13 : tag = "mfenced"
      · rw [if_pos h13] at hr
        simp only [Option.some.injEq] at hr
        subst hr
        simp [XmlEl.tag] at ht
      rw [if_neg h13] at hr
      by_cases h14 : tag = "mtable"
      · rw [if_pos h14] at hr
        simp only [Option.some.injEq] at hr
        subst hr
        simp [XmlEl.tag] at ht
      rw [if_neg h14] at hr
      by_cases h15 : tag = "mspace"
      · rw [if_pos h15] at hr
        simp only [Option.some.injEq] at hr
        subst hr
        simp [ommlRun, XmlEl.tag] at ht
      rw [if_neg h15] at hr
      by_cases h16 : tag = "mpadded" ∨ tag = "mstyle" ∨ tag = "menclose"
      · rw [if_pos h16] at hr
        simp only [Option.some.injEq] at hr
        subst hr
        simp only [oMathEmpty, flatInto_oMath, XmlEl.children, List.nil_append]
        exact flatChildren_no_oMath hGood
      rw [if_neg h16] at hr
      split_ifs at hr <;>
        first
        | (simp only [Option.some.injEq] at hr
           subst hr
           first
           | (simp only [oMathEmpty, flatInto_oMath, XmlEl.children, List.nil_append]
              exact flatChildren_no_oMath hGood)
           | simp [ommlRun, XmlEl.tag] at ht)
        | simp at hr
  exact fun m r => main (sizeOf m) m (le_refl _) r

/-- Witness for C5: translating an `mrow` of two `mrow`s yields a group
whose direct children are runs, not nested groups. -/
theorem translation_no_nested_groups_witness :
    (XmlEl.el "r" [] none none
      [XmlEl.el "rPr" [] none none [XmlEl.el "sty" [("val", "i")] none none []],
       XmlEl.el "t" [] (some "x") none []]).tag ≠ "oMath" := by
  exact translation_no_nested_groups
    (.el "mrow" [] none none
      [.el "mrow" [] none none [.el "mi" [] (some "x") none []],
       .el "mrow" [] none none [.el "mi" [] (some "y") none []]])
    (.el "oMath" [] none none
      [.el "r" [] none none
        [.el "rPr" [] none none [.el "sty" [("val", "i")] none none []],
         .el "t" [] (some "x") none []],
       .el "r" [] none none
        [.el "rPr" [] none none [.el "sty" [("val", "i")] none none []],
         .el "t" [] (some "y") none []]])
    (by simp [convertEl, convertMany, mrowRest, flatInto, appendFlattened, oMathEmpty,
      XmlEl.tag, XmlEl.children, setChildren, pyStripStr, pyStrip, pyIsDigit,
      show "x".length = 1 from rfl, show "y".length = 1 from rfl])
    rfl _ (List.mem_cons_self _ _)

/- ═══════════════════════ C6: embedded-matrix free search ═══════════════════════ -/

lemma convertMany_length (l : List XmlEl) : (convertMany l).length = l.length := by
  induction l with
  | nil => simp [convertMany]
  | cons c cs ih => simp [convertMany, ih]

lemma convertMany_append (a b : List XmlEl) :
    convertMany (a ++ b) = convertMany a ++ convertMany b := by
  induction a with
  | nil => simp [convertMany]
  | cons c cs ih => simp [convertMany, ih]

lemma flatChildren_append (a b : List (Option XmlEl)) :
    flatChildren (a ++ b) = flatChildren a ++ flatChildren b := by
  induction a with
  | nil => simp [flatChildren]
  | cons r rs ih =>
    cases r with
    | none => simp only [flatChildren, List.foldr_cons, List.cons_append] at *; exact ih
    | some c =>
      simp only [flatChildren, List.foldr_cons, List.cons_append] at *
      rw [ih, List.append_assoc]

/-- `findIdx?` over a list whose prefix all fails the predicate finds the
first hit right after the prefix. -/
lemma findIdx?_first_true {α : Type} (p : α → Bool) :
    ∀ (l1 : List α) (x : α) (l2 : List α), (∀ y ∈ l1, p y = false) → p x = true →
      ∀ i, (l1 ++ x :: l2).findIdx? p i = some (i + l1.length) := by
  intro l1
  induction l1 with
  | nil =>
    intro x l2 _ hx i
    simp [List.findIdx?_cons, hx]
  | cons a l1 ih =>
    intro x l2 h hx i
    have ha : p a = false := h a (by simp)
    rw [List.cons_append, List.findIdx?_cons, ha]
    simp only [Bool.false_eq_true, if_false]
    rw [ih x l2 (fun y hy => h y (by simp [hy])) hx (i + 1)]
    exact congrArg some (by simp [List.length_cons]; omega)

/-- C6: for a row-group whose children embed a table among other
siblings, with a delimiter operator immediately before and/or after it,
the translator locates the table by a free search, translates the prefix
siblings, wraps the table in a delimited group whose begin/end
characters come from the adjacent operators (empty when absent),
translates the suffix siblings, and concatenates all three parts as
flattened siblings of one output group. -/
theorem embedded_table_split
    (attrs : List (String × String)) (x tl : Option String)
    (pre post : List XmlEl) (od cd : Option XmlEl) (tbl : XmlEl)
    (htbl : tbl.tag = "mtable")
    (hpre : ∀ e ∈ pre, e.tag ≠ "mtable")
    (hod : ∀ o, od = some o → o.tag = "mo")
    (hcd : ∀ o, cd = some o → o.tag = "mo")
    (hodn : od = none → ∀ e, pre.getLast? = some e → e.tag ≠ "mo")
    (hcdn : cd = none → ∀ e, post.head? = some e → e.tag ≠ "mo")
    (hdelim : od.isSome ∨ cd.isSome)
    (hP1 : ¬(pre = [] ∧ post = [] ∧ od.isSome ∧ cd.isSome))
    (hP2 : ¬(pre = [] ∧ post = [] ∧ od.isSome ∧ cd = none)) :
    convertEl (.el "mrow" attrs x tl (pre ++ od.toList ++ [tbl] ++ cd.toList ++ post)) =
      some (.el "oMath" [] none none
        (flatChildren (convertMany pre) ++
         [dElem (match od with | some o => getTextEl o | none => "")
                (match cd with | some o => getTextEl o | none => "")
                (convertEl tbl)] ++
         flatChildren (convertMany post))) := by
  cases od with
  | some o =>
    cases cd with
    | some c =>
      have hot : o.tag = "mo" := hod o rfl
      have hct : c.tag = "mo" := hcd c rfl
      simp only [Option.toList_some]
      -- children and tags
      have hmap : (pre ++ [o] ++ [tbl] ++ [c] ++ post).map XmlEl.tag
          = (pre.map XmlEl.tag ++ ["mo"]) ++ "mtable" :: ("mo" :: post.map XmlEl.tag) := by
        simp [hot, hct, htbl]
      have hfind : ((pre ++ [o] ++ [tbl] ++ [c] ++ post).map XmlEl.tag).findIdx?
          (fun t => t = "mtable") = some (pre.length + 1) := by
        rw [hmap, findIdx?_first_true _ _ _ _ ?hfalse (by simp)]
        · simp
        case hfalse =>
          intro y hy
          rcases List.mem_append.mp hy with h1 | h2
          · obtain ⟨e, he, rfl⟩ := List.mem_map.mp h1
            simp [hpre e he]
          · simp only [List.mem_singleton] at h2
            subst h2
            simp
      have hlenmap : ((pre ++ [o] ++ [tbl] ++ [c] ++ post).map XmlEl.tag).length
          = pre.length + 3 + post.length := by
        simp; omega
      have hne1 : (pre ++ [o] ++ [tbl] ++ [c] ++ post).map XmlEl.tag ≠ ["mo", "mtable", "mo"] := by
        intro heq
        have hl := congrArg List.length heq
        simp at hl
        have hpn : pre = [] := List.length_eq_zero.mp (by omega)
        have hpo : post = [] := List.length_eq_zero.mp (by omega)
        exact hP1 ⟨hpn, hpo, rfl, rfl⟩
      have hne2 : (pre ++ [o] ++ [tbl] ++ [c] ++ post).map XmlEl.tag ≠ ["mo", "mtable"] := by
        intro heq
        have hl := congrArg List.length heq
        simp at hl
        omega
      have hgt1 : ((pre ++ [o] ++ [tbl] ++ [c] ++ post).map XmlEl.tag).getD pre.length "" = "mo" := by
        rw [hmap]
        rw [List.getD_append _ _ _ _ (by simp)]
        rw [List.getD_append_right _ _ _ _ (by simp)]
        simp
      have hgt2 : ((pre ++ [o] ++ [tbl] ++ [c] ++ post).map XmlEl.tag).getD (pre.length + 2) "" = "mo" := by
        rw [hmap]
        rw [List.getD_append_right _ _ _ _ (by simp)]
        simp
      have hA : 0 < pre.length + 1 ∧
          ((pre ++ [o] ++ [tbl] ++ [c] ++ post).map XmlEl.tag).getD (pre.length + 1 - 1) "" = "mo" := by
        constructor
        · omega
        · simpa using hgt1
      have hB : pre.length + 1 < ((pre ++ [o] ++ [tbl] ++ [c] ++ post).map XmlEl.tag).length - 1 ∧
          ((pre ++ [o] ++ [tbl] ++ [c] ++ post).map XmlEl.tag).getD (pre.length + 1 + 1) "" = "mo" := by
        constructor
        · rw [hlenmap]; omega
        · rw [show pre.length + 1 + 1 = pre.length + 2 from by omega]; exact hgt2
      -- element lookups
      have hge1 : (pre ++ [o] ++ [tbl] ++ [c] ++ post).getD (pre.length + 1 - 1) dummyEl = o := by
        simp only [Nat.add_sub_cancel]
        rw [show pre ++ [o] ++ [tbl] ++ [c] ++ post = pre ++ (o :: ([tbl] ++ [c] ++ post)) by simp]
        rw [List.getD_append_right _ _ _ _ (le_refl _)]
        simp
      have hge2 : (pre ++ [o] ++ [tbl] ++ [c] ++ post).getD (pre.length + 1 + 1) dummyEl = c := by
        rw [show pre ++ [o] ++ [tbl] ++ [c] ++ post = (pre ++ [o] ++ [tbl]) ++ (c :: post) by simp]
        rw [List.getD_append_right _ _ _ _ (by simp)]
        simp
      -- conversion-list computations
      have hcm : convertMany (pre ++ [o] ++ [tbl] ++ [c] ++ post)
          = convertMany pre ++ convertEl o :: convertEl tbl :: convertEl c :: convertMany post := by
        simp [convertMany_append, convertMany]
      have htake : (convertMany (pre ++ [o] ++ [tbl] ++ [c] ++ post)).take (pre.length + 1 - 1)
          = convertMany pre := by
        rw [hcm]
        simp only [Nat.add_sub_cancel]
        rw [← convertMany_length pre, List.take_left]
      have hgetd : (convertMany (pre ++ [o] ++ [tbl] ++ [c] ++ post)).getD (pre.length + 1) none
          = convertEl tbl := by
        rw [hcm]
        rw [show convertMany pre ++ convertEl o :: convertEl tbl :: convertEl c :: convertMany post
            = (convertMany pre ++ [convertEl o]) ++ (convertEl tbl :: convertEl c :: convertMany post) by simp]
        rw [List.getD_append_right _ _ _ _ (by simp [convertMany_length])]
        simp [convertMany_length]
      have hdrop : (convertMany (pre ++ [o] ++ [tbl] ++ [c] ++ post)).drop (pre.length + 1 + 2)
          = convertMany post := by
        rw [hcm]
        rw [show convertMany pre ++ convertEl o :: convertEl tbl :: convertEl c :: convertMany post
            = (convertMany pre ++ [convertEl o, convertEl tbl, convertEl c]) ++ convertMany post by simp]
        rw [show pre.length + 1 + 2 = (convertMany pre ++ [convertEl o, convertEl tbl, convertEl c]).length by
          simp [convertMany_length]]
        exact List.drop_left _ _
      -- unfold and compute
      simp only [convertEl, reduceIte]
      rw [if_neg hne1, if_neg hne2]
      simp only [mrowRest, hfind]
      rw [if_pos (Or.inl hA)]
      simp only [if_pos hA, if_pos hB]
      rw [htake, hgetd, hdrop, hge1, hge2]
      simp only [oMathEmpty, flatInto_oMath, setChildren, XmlEl.children, List.nil_append]
      simp [List.append_assoc]
    | none =>
      -- open delimiter only
      have hot : o.tag = "mo" := hod o rfl
      simp only [Option.toList_some, Option.toList_none, List.append_nil]
      have hmap : (pre ++ [o] ++ [tbl] ++ post).map XmlEl.tag
          = (pre.map XmlEl.tag ++ ["mo"]) ++ "mtable" :: post.map XmlEl.tag := by
        simp [hot, htbl]
      have hfind : ((pre ++ [o] ++ [tbl] ++ post).map XmlEl.tag).findIdx?
          (fun t => t = "mtable") = some (pre.length + 1) := by
        rw [hmap, findIdx?_first_true _ _ _ _ ?hfalse2 (by simp)]
        · simp
        case hfalse2 =>
          intro y hy
          rcases List.mem_append.mp hy with h1 | h2
          · obtain ⟨e, he, rfl⟩ := List.mem_map.mp h1
            simp [hpre e he]
          · simp only [List.mem_singleton] at h2
            subst h2
            simp
      have hlenmap : ((pre ++ [o] ++ [tbl] ++ post).map XmlEl.tag).length
          = pre.length + 2 + post.length := by
        simp; omega
      have hne1 : (pre ++ [o] ++ [tbl] ++ post).map XmlEl.tag ≠ ["mo", "mtable", "mo"] := by
        intro heq
        rw [show (pre ++ [o] ++ [tbl] ++ post).map XmlEl.tag
            = pre.map XmlEl.tag ++ "mo" :: "mtable" :: post.map XmlEl.tag from by
          simp [hot, htbl]] at heq
        cases pre with
        | nil =>
          simp at heq
          cases post with
          | nil => simp at heq
          | cons p0 post2 =>
            simp at heq
            exact hcdn rfl p0 (by simp) heq.1
        | cons e pre2 =>
          simp at heq
          cases pre2 with
          | nil => simp at heq
          | cons f pre3 =>
            simp at heq
            exact hpre f (by simp) heq.2.1
      have hne2 : (pre ++ [o] ++ [tbl] ++ post).map XmlEl.tag ≠ ["mo", "mtable"] := by
        intro heq
        have hl := congrArg List.length heq
        simp at hl
        have hpn : pre = [] := List.length_eq_zero.mp (by omega)
        have hpo : post = [] := List.length_eq_zero.mp (by omega)
        exact hP2 ⟨hpn, hpo, rfl, rfl⟩
      have hgt1 : ((pre ++ [o] ++ [tbl] ++ post).map XmlEl.tag).getD pre.length "" = "mo" := by
        rw [hmap]
        rw [List.getD_append _ _ _ _ (by simp)]
        rw [List.getD_append_right _ _ _ _ (by simp)]
        simp
      have hA : 0 < pre.length + 1 ∧
          ((pre ++ [o] ++ [tbl] ++ post).map XmlEl.tag).getD (pre.length + 1 - 1) "" = "mo" := by
        constructor
        · omega
        · simpa using hgt1
      have hBneg : ¬(pre.length + 1 < ((pre ++ [o] ++ [tbl] ++ post).map XmlEl.tag).length - 1 ∧
          ((pre ++ [o] ++ [tbl] ++ post).map XmlEl.tag).getD (pre.length + 1 + 1) "" = "mo") := by
        rintro ⟨hlt, hmo⟩
        cases post with
        | nil =>
          rw [hlenmap] at hlt
          simp at hlt
        | cons p0 post2 =>
          apply hcdn rfl p0 rfl
          rw [hmap] at hmo
          rw [List.getD_append_right _ _ _ _ (by simp)] at hmo
          simp at hmo
          exact hmo
      have hge1 : (pre ++ [o] ++ [tbl] ++ post).getD (pre.length + 1 - 1) dummyEl = o := by
        simp only [Nat.add_sub_cancel]
        rw [show pre ++ [o] ++ [tbl] ++ post = pre ++ (o :: ([tbl] ++ post)) by simp]
        rw [List.getD_append_right _ _ _ _ (le_refl _)]
        simp
      have hcm : convertMany (pre ++ [o] ++ [tbl] ++ post)
          = convertMany pre ++ convertEl o :: convertEl tbl :: convertMany post := by
        simp [convertMany_append, convertMany]
      have htake : (convertMany (pre ++ [o] ++ [tbl] ++ post)).take (pre.length + 1 - 1)
          = convertMany pre := by
        rw [hcm]
        simp only [Nat.add_sub_cancel]
        rw [← convertMany_length pre, List.take_left]
      have hgetd : (convertMany (pre ++ [o] ++ [tbl] ++ post)).getD (pre.length + 1) none
          = convertEl tbl := by
        rw [hcm]
        rw [show convertMany pre ++ convertEl o :: convertEl tbl :: convertMany post
            = (convertMany pre ++ [convertEl o]) ++ (convertEl tbl :: convertMany post) by simp]
        rw [List.getD_append_right _ _ _ _ (by simp [convertMany_length])]
        simp [convertMany_length]
      have hdrop : (convertMany (pre ++ [o] ++ [tbl] ++ post)).drop (pre.length + 1 + 1)
          = convertMany post := by
        rw [hcm]
        rw [show convertMany pre ++ convertEl o :: convertEl tbl :: convertMany post
            = (convertMany pre ++ [convertEl o, convertEl tbl]) ++ convertMany post by simp]
        rw [show pre.length + 1 + 1 = (convertMany pre ++ [convertEl o, convertEl tbl]).length by
          simp [convertMany_length]]
        exact List.drop_left _ _
      simp only [convertEl, reduceIte]
      rw [if_neg hne1, if_neg hne2]
      simp only [mrowRest, hfind]
      rw [if_pos (Or.inl hA)]
      simp only [if_pos hA, if_neg hBneg]
      rw [htake, hgetd, hdrop, hge1]
      simp only [oMathEmpty, flatInto_oMath, setChildren, XmlEl.children, List.nil_append]
      simp [List.append_assoc]
  | none =>
    cases cd with
    | none => simp at hdelim
    | some c =>
      -- close delimiter only
      have hct : c.tag = "mo" := hcd c rfl
      simp only [Option.toList_some, Option.toList_none, List.append_nil]
      have hmap : (pre ++ [tbl] ++ [c] ++ post).map XmlEl.tag
          = pre.map XmlEl.tag ++ "mtable" :: ("mo" :: post.map XmlEl.tag) := by
        simp [hct, htbl]
      have hfind : ((pre ++ [tbl] ++ [c] ++ post).map XmlEl.tag).findIdx?
          (fun t => t = "mtable") = some pre.length := by
        rw [hmap, findIdx?_first_true _ _ _ _ ?hfalse3 (by simp)]
        · simp
        case hfalse3 =>
          intro y hy
          obtain ⟨e, he, rfl⟩ := List.mem_map.mp hy
          simp [hpre e he]
      have hlenmap : ((pre ++ [tbl] ++ [c] ++ post).map XmlEl.tag).length
          = pre.length + 2 + post.length := by
        simp; omega
      have hne1 : (pre ++ [tbl] ++ [c] ++ post).map XmlEl.tag ≠ ["mo", "mtable", "mo"] := by
        intro heq
        rw [hmap] at heq
        cases pre with
        | nil => simp at heq
        | cons e pre2 =>
          simp at heq
          cases pre2 with
          | nil =>
            obtain ⟨he1, -⟩ := heq
            exact hodn rfl e (by simp) he1
          | cons f pre3 =>
            simp at heq
            exact hpre f (by simp) heq.2.1
      have hne2 : (pre ++ [tbl] ++ [c] ++ post).map XmlEl.tag ≠ ["mo", "mtable"] := by
        intro heq
        rw [hmap] at heq
        cases pre with
        | nil => simp at heq
        | cons e pre2 =>
          have hl := congrArg List.length heq
          simp at hl
          omega
      have hAneg : ¬(0 < pre.length ∧
          ((pre ++ [tbl] ++ [c] ++ post).map XmlEl.tag).getD (pre.length - 1) "" = "mo") := by
        rintro ⟨hn, hmo⟩
        have hpne : pre ≠ [] := by
          intro h
          subst h
          simp at hn
        obtain ⟨e, he⟩ := Option.isSome_iff_exists.mp (List.getLast?_isSome.mpr hpne)
        apply hodn rfl e he
        rw [hmap] at hmo
        rw [List.getD_append _ _ _ _ (by simp; omega)] at hmo
        rw [List.getD_eq_getElem?_getD, List.getElem?_map] at hmo
        rw [show pre[pre.length - 1]? = some e from by
          rw [← List.getLast?_eq_getElem?]; exact he] at hmo
        simpa using hmo
      have hB : pre.length < ((pre ++ [tbl] ++ [c] ++ post).map XmlEl.tag).length - 1 ∧
          ((pre ++ [tbl] ++ [c] ++ post).map XmlEl.tag).getD (pre.length + 1) "" = "mo" := by
        constructor
        · rw [hlenmap]; omega
        · rw [hmap]
          rw [List.getD_append_right _ _ _ _ (by simp)]
          simp
      have hge2 : (pre ++ [tbl] ++ [c] ++ post).getD (pre.length + 1) dummyEl = c := by
        rw [show pre ++ [tbl] ++ [c] ++ post = (pre ++ [tbl]) ++ (c :: post) by simp]
        rw [List.getD_append_right _ _ _ _ (by simp)]
        simp
      have hcm : convertMany (pre ++ [tbl] ++ [c] ++ post)
          = convertMany pre ++ convertEl tbl :: convertEl c :: convertMany post := by
        simp [convertMany_append, convertMany]
      have htake : (convertMany (pre ++ [tbl] ++ [c] ++ post)).take pre.length
          = convertMany pre := by
        rw [hcm]
        rw [← convertMany_length pre, List.take_left]
      have hgetd : (convertMany (pre ++ [tbl] ++ [c] ++ post)).getD pre.length none
          = convertEl tbl := by
        rw [hcm]
        rw [List.getD_append_right _ _ _ _ (by simp [convertMany_length])]
        simp [convertMany_length]
      have hdrop : (convertMany (pre ++ [tbl] ++ [c] ++ post)).drop (pre.length + 2)
          = convertMany post := by
        rw [hcm]
        rw [show convertMany pre ++ convertEl tbl :: convertEl c :: convertMany post
            = (convertMany pre ++ [convertEl tbl, convertEl c]) ++ convertMany post by simp]
        rw [show pre.length + 2 = (convertMany pre ++ [convertEl tbl, convertEl c]).length by
          simp [convertMany_length]]
        exact List.drop_left _ _
      simp only [convertEl, reduceIte]
      rw [if_neg hne1, if_neg hne2]
      simp only [mrowRest, hfind]
      rw [if_pos (Or.inr hB)]
      simp only [if_neg hAneg, if_pos hB]
      rw [htake, hgetd, hdrop, hge2]
      simp only [oMathEmpty, flatInto_oMath, setChildren, XmlEl.children, List.nil_append]
      simp [List.append_assoc]

/-- Witness for C6 at the concrete input `I = (matrix)`. -/
theorem embedded_table_split_witness :
    convertEl (.el "mrow" [] none none
      [.el "mi" [] (some "I") none [], .el "mo" [] (some "=") none [],
       .el "mo" [] (some "(") none [],
       .el "mtable" [] none none [],
       .el "mo" [] (some ")") none []]) =
      some (.el "oMath" [] none none
        (flatChildren (convertMany
            [XmlEl.el "mi" [] (some "I") none [], XmlEl.el "mo" [] (some "=") none []]) ++
         [dElem (getTextEl (.el "mo" [] (some "(") none []))
            (getTextEl (.el "mo" [] (some ")") none []))
            (convertEl (.el "mtable" [] none none []))] ++
         flatChildren (convertMany ([] : List XmlEl)))) := by
  exact embedded_table_split [] none none
    [.el "mi" [] (some "I") none [], .el "mo" [] (some "=") none []]
    []
    (some (.el "mo" [] (some "(") none []))
    (some (.el "mo" [] (some ")") none []))
    (.el "mtable" [] none none [])
    rfl
    (by decide)
    (by intro o h; cases h; rfl)
    (by intro o h; cases h; rfl)
    (by intro h; cases h)
    (by intro h; cases h)
    (Or.inl rfl)
    (by rintro ⟨h, -⟩; cases h)
    (by rintro ⟨h, -⟩; cases h)

/- ═══════════════════════ C9: footnote_ref ValueError ═══════════════════════ -/

/-- C9: the inline formatter is not total: a `footnote_ref` token whose
`meta` lacks a numeric `"id"` entry makes `_process_inline` evaluate
`int("?")` and raise `ValueError`, aborting processing of the enclosing
block (here, the paragraph handler propagates the error instead of
returning). -/
theorem inline_footnote_ref_raises :
    processInline env0 [ftRefNoId] = ([], some "ValueError") ∧
    handleParagraph env0 badParaToks 0 initState =
      .error ("ValueError", ⟨[DEv.paraB 0], 0, 0, []⟩) :=
  ⟨rfl, rfl⟩

/- ═══════════════════════ C3: blockquote depth ═══════════════════════ -/

/-- Counterexample to C3 as stated: when processing the collected inner
content raises (here a `ValueError` from a bad footnote reference), the
blockquote handler propagates the exception without running its
decrement, leaving `_blockquote_depth` at the pre-call value plus one. -/
theorem blockquote_depth_leaks_on_error :
    handleBlockquote env0 9 badBqToks 0 initState =
      some (.error ("ValueError", ⟨[DEv.paraB 0], 1, 0, []⟩)) ∧
    initState.blockquoteDepth = 0 ∧
    (1 : Int) ≠ initState.blockquoteDepth :=
  ⟨rfl, rfl, by decide⟩

/- ═══════════════════════ C4: ordered-list counters ═══════════════════════ -/

lemma dictGet_erase (k : Int) (d : Counters) : dictGet k (dictErase k d) = none := by
  induction d with
  | nil => rfl
  | cons p ps ih =>
    by_cases hp : p.1 = k
    · simp [dictErase, hp] at *
      exact ih
    · simp [dictErase, hp, dictGet] at *
      exact ih

lemma dictGet_none_of_not_has {k : Int} {d : Counters} (h : dictHas k d = false) :
    dictGet k d = none := by
  unfold dictHas at h
  cases hg : dictGet k d with
  | none => rfl
  | some v => rw [hg] at h; simp at h

lemma dictInsert_dictInsert (k : Int) (a b : Int) (d : Counters) :
    dictInsert k a (dictInsert k b d) = dictInsert k a d := by
  induction d with
  | nil => simp [dictInsert]
  | cons p ps ih =>
    by_cases hp : p.1 = k
    · simp [dictInsert, hp]
    · simp [dictInsert, hp, ih]

/-- C4: ordered-list counters are per-depth.  (a) When an ordered list
closes, its depth's counter entry has been removed from the map, so no
sibling can observe it.  (b) The handler's behaviour is independent of
any stale entry previously stored at that depth: the zero-reset on open
overwrites it, so items are numbered from a fresh zero (first item `1.`),
never from a stale value. -/
theorem ordered_counters_fresh_and_removed (env : Env) (fuel : Nat)
    (tokens : List Token) (i : Nat) (st : BState) :
    (∀ st' j, handleList env fuel tokens i st true = some (.ok (st', j)) →
      dictGet st.listDepth st'.orderedCounters = none) ∧
    (∀ v, handleList env fuel tokens i
        { st with orderedCounters := dictInsert st.listDepth v st.orderedCounters } true =
      handleList env fuel tokens i st true) := by
  obtain ⟨doc, bq, ld, cnt⟩ := st
  constructor
  · intro st' j h
    cases fuel with
    | zero => simp [handleList] at h
    | succ fuel =>
      simp only [handleList] at h
      split at h
      · exact absurd h (by simp)
      · exact absurd h (by simp)
      · simp only [Option.some.injEq, Except.ok.injEq, Prod.mk.injEq] at h
        obtain ⟨hst, -⟩ := h
        subst hst
        rw [show (ld + 1 - 1 : Int) = ld from by omega]
        split
        · next hhas => exact dictGet_erase ld _
        · next hhas =>
          simp only [Bool.true_and] at hhas
          simp only [Bool.not_eq_true] at hhas
          exact dictGet_none_of_not_has hhas
  · intro v
    cases fuel with
    | zero => simp [handleList]
    | succ fuel =>
      simp only [handleList, Int.add_sub_cancel, if_true]
      rw [dictInsert_dictInsert]

/-- C4 witness: a two-item ordered list processed from a fresh state. -/
theorem ordered_counters_fresh_and_removed_witness :
    dictGet initState.listDepth
      (⟨[DEv.listItemB 1, DEv.markerRun "1. " true, DEv.run (RE.text "A" false false false),
         DEv.listItemB 1, DEv.markerRun "2. " true, DEv.run (RE.text "B" false false false)],
        0, 0, []⟩ : BState).orderedCounters = none ∧
    handleList env0 20 orderedToks 0
        { initState with
            orderedCounters := dictInsert initState.listDepth 7 initState.orderedCounters } true =
      handleList env0 20 orderedToks 0 initState true :=
  ⟨(ordered_counters_fresh_and_removed env0 20 orderedToks 0 initState).1 _ 12 rfl,
   (ordered_counters_fresh_and_removed env0 20 orderedToks 0 initState).2 7⟩

/- ═══════════════════════ C8: table grid ═══════════════════════ -/

lemma getD_set_ne {α : Type} {l : List α} {i j : Nat} (a d : α) (h : i ≠ j) :
    (l.set i a).getD j d = l.getD j d := by
  simp [List.getD_eq_getElem?_getD, List.getElem?_set, h]

lemma getD_set_eq {α : Type} {l : List α} {i : Nat} (a d : α) (h : i < l.length) :
    (l.set i a).getD i d = a := by
  simp [List.getD_eq_getElem?_getD, List.getElem?_set, h]

lemma gridSet_length (g : List (List (Option CellFill))) (r c : Nat) (v : CellFill) :
    (gridSet g r c v).length = g.length := by
  simp [gridSet]

lemma gridSet_row_length (g : List (List (Option CellFill))) (r c : Nat) (v : CellFill)
    (rj : Nat) : ((gridSet g r c v).getD rj []).length = (g.getD rj []).length := by
  unfold gridSet
  by_cases hr : rj = r
  · subst hr
    by_cases hlen : rj < g.length
    · rw [getD_set_eq _ _ hlen, List.length_set]
    · rw [List.set_eq_of_length_le (Nat.le_of_not_lt hlen)]
  · rw [getD_set_ne _ _ (fun he => hr he.symm)]

lemma gridSet_untouched (g : List (List (Option CellFill))) (r c : Nat) (v : CellFill)
    (rj cj : Nat) (d : Option CellFill) (h : rj ≠ r ∨ cj ≠ c) :
    ((gridSet g r c v).getD rj []).getD cj d = (g.getD rj []).getD cj d := by
  unfold gridSet
  by_cases hr : rj = r
  · subst hr
    have hc : cj ≠ c := h.resolve_left (fun hh => hh rfl)
    by_cases hlen : rj < g.length
    · rw [getD_set_eq _ _ hlen, getD_set_ne _ _ (fun he => hc he.symm)]
    · rw [List.set_eq_of_length_le (Nat.le_of_not_lt hlen)]
  · rw [getD_set_ne _ _ (fun he => hr he.symm)]

lemma fillRowCells_shape (env : Env) (n ri : Nat) (hdr : Bool) :
    ∀ (cells : List Cell) (colIdx : Nat) (g : List (List (Option CellFill))),
    (fillRowCells env n ri hdr cells colIdx g).1.length = g.length ∧
    ∀ rj, ((fillRowCells env n ri hdr cells colIdx g).1.getD rj []).length =
      (g.getD rj []).length := by
  intro cells
  induction cells with
  | nil => intro colIdx g; exact ⟨rfl, fun _ => rfl⟩
  | cons cell rest ih =>
    intro colIdx g
    rw [fillRowCells]
    by_cases hle : n ≤ colIdx
    · rw [if_pos hle]; exact ⟨rfl, fun _ => rfl⟩
    · rw [if_neg hle]
      rcases hio : inlineRunsOf env cell.inlineTok with ⟨runs, err⟩
      cases err with
      | some e => exact ⟨gridSet_length _ _ _ _, fun rj => gridSet_row_length _ _ _ _ rj⟩
      | none =>
        refine ⟨?_, ?_⟩
        · exact ((ih (colIdx + 1) _).1).trans (gridSet_length _ _ _ _)
        · intro rj
          exact ((ih (colIdx + 1) _).2 rj).trans (gridSet_row_length _ _ _ _ rj)

lemma fillRowCells_untouched (env : Env) (n ri : Nat) (hdr : Bool) :
    ∀ (cells : List Cell) (colIdx : Nat) (g : List (List (Option CellFill)))
      (rj cj : Nat) (d : Option CellFill),
      (rj ≠ ri ∨ colIdx + cells.length ≤ cj ∨ cj < colIdx) →
      ((fillRowCells env n ri hdr cells colIdx g).1.getD rj []).getD cj d =
        (g.getD rj []).getD cj d := by
  intro cells
  induction cells with
  | nil => intro colIdx g rj cj d _; rfl
  | cons cell rest ih =>
    intro colIdx g rj cj d hcond
    rw [fillRowCells]
    by_cases hle : n ≤ colIdx
    · rw [if_pos hle]
    · rw [if_neg hle]
      rcases hio : inlineRunsOf env cell.inlineTok with ⟨runs, err⟩
      have hg1 : ∀ (v : CellFill),
          ((gridSet g ri colIdx v).getD rj []).getD cj d = (g.getD rj []).getD cj d := by
        intro v
        apply gridSet_untouched
        rcases hcond with h | h | h
        · exact Or.inl h
        · refine Or.inr (fun he => ?_)
          subst he
          simp only [List.length_cons] at h
          omega
        · exact Or.inr (by omega)
      have hcond2 : rj ≠ ri ∨ colIdx + 1 + rest.length ≤ cj ∨ cj < colIdx + 1 := by
        rcases hcond with h | h | h
        · exact Or.inl h
        · refine Or.inr (Or.inl ?_)
          simp only [List.length_cons] at h
          omega
        · exact Or.inr (Or.inr (by omega))
      cases err with
      | some e => exact hg1 _
      | none => exact (ih (colIdx + 1) _ rj cj d hcond2).trans (hg1 _)

lemma fillAllRows_shape (env : Env) (n : Nat) :
    ∀ (rs : List (List Cell × Bool)) (rowIdx : Nat) (g : List (List (Option CellFill))),
    (fillAllRows env n rs rowIdx g).1.length = g.length ∧
    ∀ rj, ((fillAllRows env n rs rowIdx g).1.getD rj []).length = (g.getD rj []).length := by
  intro rs
  induction rs with
  | nil => intro rowIdx g; exact ⟨rfl, fun _ => rfl⟩
  | cons rb rest ih =>
    intro rowIdx g
    obtain ⟨row, isHdr⟩ := rb
    rw [fillAllRows]
    rcases hfr : fillRowCells env n rowIdx isHdr row 0 g with ⟨g1, err⟩
    have h1 : g1.length = g.length := by
      have := (fillRowCells_shape env n rowIdx isHdr row 0 g).1
      rw [hfr] at this; exact this
    have h2 : ∀ rj, (g1.getD rj []).length = (g.getD rj []).length := by
      intro rj
      have := (fillRowCells_shape env n rowIdx isHdr row 0 g).2 rj
      rw [hfr] at this; exact this
    cases err with
    | some e => exact ⟨h1, h2⟩
    | none =>
      refine ⟨?_, ?_⟩
      · exact ((ih (rowIdx + 1) g1).1).trans h1
      · intro rj
        exact ((ih (rowIdx + 1) g1).2 rj).trans (h2 rj)

lemma fillAllRows_untouched (env : Env) (n : Nat) :
    ∀ (rs : List (List Cell × Bool)) (rowIdx : Nat) (g : List (List (Option CellFill)))
      (ri cj : Nat) (d : Option CellFill),
      (∀ k, k < rs.length → ri = rowIdx + k → (rs.getD k ([], false)).1.length ≤ cj) →
      ((fillAllRows env n rs rowIdx g).1.getD ri []).getD cj d =
        (g.getD ri []).getD cj d := by
  intro rs
  induction rs with
  | nil => intro rowIdx g ri cj d _; rfl
  | cons rb rest ih =>
    intro rowIdx g ri cj d hcond
    obtain ⟨row, isHdr⟩ := rb
    rw [fillAllRows]
    rcases hfr : fillRowCells env n rowIdx isHdr row 0 g with ⟨g1, err⟩
    have hrow : ((fillRowCells env n rowIdx isHdr row 0 g).1.getD ri []).getD cj d =
        (g.getD ri []).getD cj d := by
      apply fillRowCells_untouched
      by_cases hri : ri = rowIdx
      · refine Or.inr (Or.inl ?_)
        have := hcond 0 (by simp) (by omega)
        simpa using this
      · exact Or.inl hri
    rw [hfr] at hrow
    cases err with
    | some e => exact hrow
    | none =>
      have hrest : ∀ k, k < rest.length → ri = rowIdx + 1 + k →
          (rest.getD k ([], false)).1.length ≤ cj := by
        intro k hk hik
        have := hcond (k + 1) (by simp only [List.length_cons]; omega) (by omega)
        simpa using this
      exact (ih (rowIdx + 1) g1 ri cj d hrest).trans hrow

lemma foldl_max_le_init : ∀ (l : List (List Cell × Bool)) (a : Nat),
    a ≤ l.foldl (fun m rb => max m rb.1.length) a := by
  intro l
  induction l with
  | nil => intro a; exact Nat.le_refl a
  | cons p ps ih =>
    intro a
    exact le_trans (Nat.le_max_left a p.1.length) (ih _)

lemma mem_le_foldl_max : ∀ (l : List (List Cell × Bool)) (a : Nat) (r : List Cell × Bool),
    r ∈ l → r.1.length ≤ l.foldl (fun m rb => max m rb.1.length) a := by
  intro l
  induction l with
  | nil => intro a r h; cases h
  | cons p ps ih =>
    intro a r h
    rcases List.mem_cons.mp h with h | h
    · subst h
      exact le_trans (Nat.le_max_right a r.1.length) (foldl_max_le_init ps _)
    · exact ih _ r h

lemma foldl_max_attained : ∀ (l : List (List Cell × Bool)) (a : Nat),
    l.foldl (fun m rb => max m rb.1.length) a = a ∨
    ∃ r ∈ l, l.foldl (fun m rb => max m rb.1.length) a = r.1.length := by
  intro l
  induction l with
  | nil => intro a; exact Or.inl rfl
  | cons p ps ih =>
    intro a
    rcases ih (max a p.1.length) with h | h
    · rcases Nat.le_total a p.1.length with hle | hle
      · exact Or.inr ⟨p, List.mem_cons_self _ _,
          by rw [List.foldl_cons, h, Nat.max_eq_right hle]⟩
      · exact Or.inl (by rw [List.foldl_cons, h, Nat.max_eq_left hle])
    · obtain ⟨r, hr, he⟩ := h
      exact Or.inr ⟨r, List.mem_cons_of_mem _ hr, he⟩

/-- C8: on table close the handler's column count is the maximum row
width over the accumulated rows (an upper bound that is attained), and
ragged rows are tolerated: the filled grid keeps one entry per row, each
grid row has exactly `numCols` slots, a short row's trailing slots stay
empty (`none`), and the handler emits the table rather than erroring on
raggedness (any error comes only from inline processing inside a cell). -/
theorem table_columns_max_and_ragged (env : Env)
    (rows : List (List Cell × Bool)) (st : BState) (iE : Nat)
    (hne : rows ≠ []) (hpos : 0 < maxRowWidth rows) :
    (∀ r ∈ rows, r.1.length ≤ maxRowWidth rows) ∧
    (∃ r ∈ rows, r.1.length = maxRowWidth rows) ∧
    ((fillAllRows env (maxRowWidth rows) rows 0
        (List.replicate rows.length (List.replicate (maxRowWidth rows) none))).1.length
      = rows.length) ∧
    (∀ ri, ri < rows.length →
      ((fillAllRows env (maxRowWidth rows) rows 0
          (List.replicate rows.length (List.replicate (maxRowWidth rows) none))).1.getD
            ri []).length = maxRowWidth rows) ∧
    (∀ ri ci, ri < rows.length → (rows.getD ri ([], false)).1.length ≤ ci →
        ci < maxRowWidth rows →
      ((fillAllRows env (maxRowWidth rows) rows 0
          (List.replicate rows.length (List.replicate (maxRowWidth rows) none))).1.getD
            ri []).getD ci (some ⟨[], false, none⟩) = none) ∧
    (match emitTable env rows st iE with
     | .ok (st', _) => st'.doc = st.doc ++ [DEv.tableB rows.length (maxRowWidth rows)
         (fillAllRows env (maxRowWidth rows) rows 0
           (List.replicate rows.length (List.replicate (maxRowWidth rows) none))).1]
     | .error (_, st') => st'.doc = st.doc ++ [DEv.tableB rows.length (maxRowWidth rows)
         (fillAllRows env (maxRowWidth rows) rows 0
           (List.replicate rows.length (List.replicate (maxRowWidth rows) none))).1]) := by
  refine ⟨fun r hr => mem_le_foldl_max rows 0 r hr, ?_, ?_, ?_, ?_, ?_⟩
  · rcases foldl_max_attained rows 0 with h | h
    · exact absurd h (by unfold maxRowWidth at hpos; omega)
    · obtain ⟨r, hr, he⟩ := h
      exact ⟨r, hr, he.symm⟩
  · rw [(fillAllRows_shape env _ rows 0 _).1, List.length_replicate]
  · intro ri hri
    rw [(fillAllRows_shape env _ rows 0 _).2 ri]
    simp [List.getD_eq_getElem?_getD, List.getElem?_replicate, hri]
  · intro ri ci hri hlen hci
    rw [fillAllRows_untouched env _ rows 0 _ ri ci _ ?_]
    · simp [List.getD_eq_getElem?_getD, List.getElem?_replicate, hri, hci]
    · intro k hk hik
      have hk' : k = ri := by omega
      subst hk'
      exact hlen
  · have hlp : 0 < rows.length := List.length_pos.mpr hne
    unfold emitTable
    rw [if_neg (by simp [List.isEmpty_iff, hne])]
    rw [if_neg (by push_neg; exact ⟨by omega, by omega⟩)]
    rcases hfa : fillAllRows env (maxRowWidth rows) rows 0
        (List.replicate rows.length (List.replicate (maxRowWidth rows) none)) with ⟨G, err⟩
    cases err with
    | some e => simp [hfa]
    | none => simp [hfa]

/-- C8 witness: rows of cell-counts [3, 2, 3] give a 3-column table with
the short row's trailing cell empty. -/
theorem table_columns_max_and_ragged_witness :
    maxRowWidth raggedRows = 3 ∧
    ((fillAllRows env0 (maxRowWidth raggedRows) raggedRows 0
        (List.replicate raggedRows.length
          (List.replicate (maxRowWidth raggedRows) none))).1.getD 1 []).getD 2
        (some ⟨[], false, none⟩) = none :=
  ⟨rfl,
   (table_columns_max_and_ragged env0 raggedRows initState 0
      (by simp [raggedRows]) (by decide)).2.2.2.2.1 1 2 (by decide) (by decide) (by decide)⟩

/- ═══════════ C3 (amended): depth restored on normal return ═══════════ -/

lemma skipClose_ge (tokens : List Token) (i : Nat) (close : String) :
    i ≤ skipClose tokens i close := by
  unfold skipClose
  split <;> omega

lemma bq_handleHeading {env : Env} {tokens : List Token} {i : Nat} {st st' : BState}
    {j : Nat} (h : handleHeading env tokens i st = .ok (st', j)) :
    st'.blockquoteDepth = st.blockquoteDepth := by
  unfold handleHeading at h
  repeat' split at h
  all_goals try simp_all
  all_goals (obtain ⟨h1, -⟩ := h; subst h1; split <;> rfl)

lemma bq_handleParagraph {env : Env} {tokens : List Token} {i : Nat} {st st' : BState}
    {j : Nat} (h : handleParagraph env tokens i st = .ok (st', j)) :
    st'.blockquoteDepth = st.blockquoteDepth := by
  unfold handleParagraph at h
  repeat' split at h
  all_goals try simp_all
  all_goals (obtain ⟨h1, -⟩ := h; subst h1; split <;> rfl)

lemma bq_handleCodeBlock {env : Env} {tok : Token} {st st1 : BState}
    (h : handleCodeBlock env tok st = .ok st1) :
    st1.blockquoteDepth = st.blockquoteDepth := by
  unfold handleCodeBlock at h
  repeat' split at h
  all_goals try simp_all
  all_goals (subst h; rfl)

lemma bq_handleMathBlock (env : Env) (tok : Token) (st : BState) :
    (handleMathBlock env tok st).blockquoteDepth = st.blockquoteDepth := by
  simp only [handleMathBlock]
  split
  · rfl
  · split <;> rfl

lemma bq_emitTable {env : Env} {rows : List (List Cell × Bool)} {st : BState}
    {iE : Nat} {st' : BState} {j : Nat} (h : emitTable env rows st iE = .ok (st', j)) :
    st'.blockquoteDepth = st.blockquoteDepth := by
  unfold emitTable at h
  repeat' split at h
  all_goals try simp_all
  all_goals repeat' split at h
  all_goals try simp_all
  all_goals (obtain ⟨h1, -⟩ := h; subst h1; rfl)

lemma bq_handleTable {env : Env} {tokens : List Token} {i : Nat} {st st' : BState}
    {j : Nat} (h : handleTable env tokens i st = .ok (st', j)) :
    st'.blockquoteDepth = st.blockquoteDepth := by
  unfold handleTable at h
  repeat' split at h
  exact bq_emitTable h

lemma bq_fnLoop : ∀ (n : Nat) (env : Env) (tokens : List Token) (i : Nat) (depth : Int)
    (st st' : BState) (j : Nat), tokens.length - i ≤ n →
    fnLoop env tokens i depth st = .ok (st', j) →
    st'.blockquoteDepth = st.blockquoteDepth := by
  intro n
  induction n with
  | zero =>
    intro env tokens i depth st st' j hle h
    rw [fnLoop] at h
    rw [dif_neg (by omega : ¬(i < tokens.length ∧ depth > 0))] at h
    simp_all
  | succ n ihn =>
    intro env tokens i depth st st' j hle h
    rw [fnLoop] at h
    by_cases hc : i < tokens.length ∧ depth > 0
    · rw [dif_pos hc] at h
      beta_reduce at h
      have hs1 := skipClose_ge tokens (i + 1) "paragraph_close"
      have hs2 := skipClose_ge tokens (i + 1 + 1) "paragraph_close"
      by_cases h1 : (tokens.getD i defTok).type = "footnote_block_open"
      · rw [if_pos h1] at h
        refine ihn env tokens _ _ _ _ _ ?_ h; omega
      · rw [if_neg h1] at h
        by_cases h2 : (tokens.getD i defTok).type = "footnote_block_close"
        · rw [if_pos h2] at h
          by_cases h3 : depth - 1 = 0
          · rw [if_pos h3] at h
            simp only [Except.ok.injEq, Prod.mk.injEq] at h
            obtain ⟨h4, -⟩ := h
            subst h4
            rfl
          · rw [if_neg h3] at h
            refine ihn env tokens _ _ _ _ _ ?_ h; omega
        · rw [if_neg h2] at h
          by_cases h3 : (tokens.getD i defTok).type = "footnote_open"
          · rw [if_pos h3] at h
            refine ihn env tokens _ _ _ _ _ ?_ h; omega
          · rw [if_neg h3] at h
            by_cases h4 : (tokens.getD i defTok).type = "footnote_close"
            · rw [if_pos h4] at h
              refine ihn env tokens _ _ _ _ _ ?_ h; omega
            · rw [if_neg h4] at h
              by_cases h5 : (tokens.getD i defTok).type = "paragraph_open"
              · rw [if_pos h5] at h
                by_cases h6 : i + 1 < tokens.length ∧
                    (tokens.getD (i + 1) defTok).type = "inline"
                · rw [if_pos h6] at h
                  simp only [] at h
                  rcases hpe : (if (tokens.getD (i + 1) defTok).children.isEmpty = true
                      then (([] : List RE), (none : Option String))
                      else processInline env (tokens.getD (i + 1) defTok).children)
                    with ⟨runs, err⟩
                  rw [hpe] at h
                  cases err with
                  | some e => exact Except.noConfusion h
                  | none =>
                    have hh : fnLoop env tokens (skipClose tokens (i + 1 + 1) "paragraph_close")
                        depth { st with doc := st.doc ++ [DEv.fnParaB] ++ List.map DEv.run runs } =
                        Except.ok (st', j) := h
                    have hr := ihn env tokens _ _ _ st' j (by omega) hh
                    exact hr
                · rw [if_neg h6] at h
                  refine ihn env tokens _ _ _ _ _ ?_ h; omega
              · rw [if_neg h5] at h
                refine ihn env tokens _ _ _ _ _ ?_ h; omega
    · rw [dif_neg hc] at h
      simp_all

lemma bq_handleFootnoteBlock {env : Env} {tokens : List Token} {i : Nat}
    {st st' : BState} {j : Nat} (h : handleFootnoteBlock env tokens i st = .ok (st', j)) :
    st'.blockquoteDepth = st.blockquoteDepth := by
  unfold handleFootnoteBlock at h
  exact bq_fnLoop tokens.length env tokens (i + 1) 1
    { st with doc := st.doc ++ [DEv.hrB, DEv.fnTitle] } st' j (by omega) h

lemma bq_dispatchPlain {env : Env} {tokens : List Token} {i : Nat} {st st' : BState}
    {j : Nat} (h : dispatchPlain env tokens i st = .ok (st', j)) :
    st'.blockquoteDepth = st.blockquoteDepth := by
  unfold dispatchPlain at h
  simp only [] at h
  by_cases c1 : (tokens.getD i defTok).type = "heading_open"
  · rw [if_pos c1] at h; exact bq_handleHeading h
  · rw [if_neg c1] at h
    by_cases c2 : (tokens.getD i defTok).type = "paragraph_open"
    · rw [if_pos c2] at h; exact bq_handleParagraph h
    · rw [if_neg c2] at h
      by_cases c3 : (tokens.getD i defTok).type = "fence" ∨
          (tokens.getD i defTok).type = "code_block"
      · rw [if_pos c3] at h
        rcases hcb : handleCodeBlock env (tokens.getD i defTok) st with es | st1
        · rw [hcb] at h; exact Except.noConfusion h
        · rw [hcb] at h
          simp only [Except.ok.injEq, Prod.mk.injEq] at h
          obtain ⟨h1, -⟩ := h
          subst h1
          exact bq_handleCodeBlock hcb
      · rw [if_neg c3] at h
        by_cases c4 : (tokens.getD i defTok).type = "math_block" ∨
            (tokens.getD i defTok).type = "math_block_eqno"
        · rw [if_pos c4] at h
          simp only [Except.ok.injEq, Prod.mk.injEq] at h
          obtain ⟨h1, -⟩ := h
          subst h1
          exact bq_handleMathBlock _ _ _
        · rw [if_neg c4] at h
          by_cases c5 : (tokens.getD i defTok).type = "table_open"
          · rw [if_pos c5] at h; exact bq_handleTable h
          · rw [if_neg c5] at h
            by_cases c6 : (tokens.getD i defTok).type = "hr"
            · rw [if_pos c6] at h
              simp only [Except.ok.injEq, Prod.mk.injEq] at h
              obtain ⟨h1, -⟩ := h
              subst h1
              rfl
            · rw [if_neg c6] at h
              by_cases c7 : (tokens.getD i defTok).type = "html_block"
              · rw [if_pos c7] at h
                simp only [Except.ok.injEq, Prod.mk.injEq] at h
                obtain ⟨h1, -⟩ := h
                subst h1
                rfl
              · rw [if_neg c7] at h
                by_cases c8 : (tokens.getD i defTok).type = "front_matter"
                · rw [if_pos c8] at h
                  simp only [Except.ok.injEq, Prod.mk.injEq] at h
                  obtain ⟨h1, -⟩ := h
                  subst h1
                  rfl
                · rw [if_neg c8] at h
                  by_cases c9 : (tokens.getD i defTok).type = "footnote_block_open"
                  · rw [if_pos c9] at h; exact bq_handleFootnoteBlock h
                  · rw [if_neg c9] at h
                    simp only [Except.ok.injEq, Prod.mk.injEq] at h
                    obtain ⟨h1, -⟩ := h
                    subst h1
                    rfl

lemma bq_itemPlainStep {env : Env} {tokens : List Token} {i : Nat} {st st' : BState}
    {ordered : Bool} {depth : Int} {j : Nat}
    (h : itemPlainStep env tokens i st ordered depth = .ok (st', j)) :
    st'.blockquoteDepth = st.blockquoteDepth := by
  unfold itemPlainStep at h
  simp only [] at h
  by_cases c1 : (tokens.getD i defTok).type = "paragraph_open"
  · rw [if_pos c1] at h
    rcases hgi : grabInline tokens (i + 1) with ⟨inlineTok, i2⟩
    rw [hgi] at h
    rcases hir : inlineRunsOf env inlineTok with ⟨runs, err⟩
    rw [hir] at h
    cases err with
    | some e => exact Except.noConfusion h
    | none =>
      simp only [Except.ok.injEq, Prod.mk.injEq] at h
      obtain ⟨h1, -⟩ := h
      subst h1
      split <;> rfl
  · rw [if_neg c1] at h
    by_cases c2 : (tokens.getD i defTok).type = "fence" ∨
        (tokens.getD i defTok).type = "code_block"
    · rw [if_pos c2] at h
      rcases hcb : handleCodeBlock env (tokens.getD i defTok) st with es | st1
      · rw [hcb] at h; exact Except.noConfusion h
      · rw [hcb] at h
        simp only [Except.ok.injEq, Prod.mk.injEq] at h
        obtain ⟨h1, -⟩ := h
        subst h1
        exact bq_handleCodeBlock hcb
    · rw [if_neg c2] at h
      by_cases c3 : (tokens.getD i defTok).type = "math_block" ∨
          (tokens.getD i defTok).type = "math_block_eqno"
      · rw [if_pos c3] at h
        simp only [Except.ok.injEq, Prod.mk.injEq] at h
        obtain ⟨h1, -⟩ := h
        subst h1
        exact bq_handleMathBlock _ _ _
      · rw [if_neg c3] at h
        simp only [Except.ok.injEq, Prod.mk.injEq] at h
        obtain ⟨h1, -⟩ := h
        subst h1
        rfl

lemma bqPres : ∀ fuel : Nat,
    (∀ env tokens i st st2, processTokens env fuel tokens i st = some (.ok st2) →
      st2.blockquoteDepth = st.blockquoteDepth) ∧
    (∀ env tokens i st ord st' j, handleList env fuel tokens i st ord = some (.ok (st', j)) →
      st'.blockquoteDepth = st.blockquoteDepth) ∧
    (∀ env tokens i st ord depth st' j,
      listLoop env fuel tokens i st ord depth = some (.ok (st', j)) →
      st'.blockquoteDepth = st.blockquoteDepth) ∧
    (∀ env tokens i st ord depth st' j,
      itemLoop env fuel tokens i st ord depth = some (.ok (st', j)) →
      st'.blockquoteDepth = st.blockquoteDepth) ∧
    (∀ env tokens i st st' j, handleBlockquote env fuel tokens i st = some (.ok (st', j)) →
      st'.blockquoteDepth = st.blockquoteDepth) := by
  intro fuel
  induction fuel with
  | zero =>
    refine ⟨?_, ?_, ?_, ?_, ?_⟩
    · intro env tokens i st st2 h; exact Option.noConfusion h
    · intro env tokens i st ord st' j h; exact Option.noConfusion h
    · intro env tokens i st ord depth st' j h; exact Option.noConfusion h
    · intro env tokens i st ord depth st' j h; exact Option.noConfusion h
    · intro env tokens i st st' j h; exact Option.noConfusion h
  | succ fuel ih =>
    obtain ⟨ihP, ihL, ihLL, ihIL, ihB⟩ := ih
    refine ⟨?_, ?_, ?_, ?_, ?_⟩
    · intro env tokens i st st2 h
      rw [processTokens] at h
      by_cases c0 : i < tokens.length
      · rw [if_pos c0] at h
        try simp only [] at h
        by_cases c1 : (tokens.getD i defTok).type = "bullet_list_open"
        · rw [if_pos c1] at h
          rcases hm : handleList env fuel tokens i st false with _ | r
          · rw [hm] at h; exact Option.noConfusion h
          · rw [hm] at h
            cases r with
            | error es => simp at h
            | ok p =>
              obtain ⟨st1, i1⟩ := p
              exact (ihP _ _ _ _ _ h).trans (ihL _ _ _ _ _ _ _ hm)
        · rw [if_neg c1] at h
          by_cases c2 : (tokens.getD i defTok).type = "ordered_list_open"
          · rw [if_pos c2] at h
            rcases hm : handleList env fuel tokens i st true with _ | r
            · rw [hm] at h; exact Option.noConfusion h
            · rw [hm] at h
              cases r with
              | error es => simp at h
              | ok p =>
                obtain ⟨st1, i1⟩ := p
                exact (ihP _ _ _ _ _ h).trans (ihL _ _ _ _ _ _ _ hm)
          · rw [if_neg c2] at h
            by_cases c3 : (tokens.getD i defTok).type = "blockquote_open"
            · rw [if_pos c3] at h
              rcases hm : handleBlockquote env fuel tokens i st with _ | r
              · rw [hm] at h; exact Option.noConfusion h
              · rw [hm] at h
                cases r with
                | error es => simp at h
                | ok p =>
                  obtain ⟨st1, i1⟩ := p
                  exact (ihP _ _ _ _ _ h).trans (ihB _ _ _ _ _ _ hm)
            · rw [if_neg c3] at h
              rcases hd : dispatchPlain env tokens i st with es | p
              · rw [hd] at h; simp at h
              · rw [hd] at h
                obtain ⟨st1, i1⟩ := p
                exact (ihP _ _ _ _ _ h).trans (bq_dispatchPlain hd)
      · rw [if_neg c0] at h
        simp only [Option.some.injEq, Except.ok.injEq] at h
        subst h
        rfl
    · intro env tokens i st ord st' j h
      simp only [handleList] at h
      split at h
      · exact Option.noConfusion h
      · simp at h
      · next st3 i3 heq =>
        simp only [Option.some.injEq, Except.ok.injEq, Prod.mk.injEq] at h
        obtain ⟨h1, -⟩ := h
        subst h1
        have h3 := ihLL _ _ _ _ _ _ _ _ heq
        have h4 : st3.blockquoteDepth = st.blockquoteDepth :=
          h3.trans (by cases ord <;> rfl)
        split
        · exact h4
        · exact h4
    · intro env tokens i st ord depth st' j h
      rw [listLoop] at h
      by_cases c0 : i < tokens.length
      · rw [if_pos c0] at h
        try simp only [] at h
        by_cases c1 : (tokens.getD i defTok).type = "bullet_list_close" ∨
            (tokens.getD i defTok).type = "ordered_list_close"
        · rw [if_pos c1] at h
          simp only [Option.some.injEq, Except.ok.injEq, Prod.mk.injEq] at h
          obtain ⟨h1, -⟩ := h
          subst h1
          rfl
        · rw [if_neg c1] at h
          by_cases c2 : (tokens.getD i defTok).type = "list_item_open"
          · rw [if_pos c2] at h
            split at h
            · exact Option.noConfusion h
            · simp at h
            · next st2 i2 heq =>
              have h2 := ihIL _ _ _ _ _ _ _ _ heq
              have h3 := ihLL _ _ _ _ _ _ _ _ h
              have h4 : st2.blockquoteDepth = st.blockquoteDepth :=
                h2.trans (by cases ord <;> rfl)
              exact h3.trans h4
          · rw [if_neg c2] at h
            exact ihLL _ _ _ _ _ _ _ _ h
      · rw [if_neg c0] at h
        simp only [Option.some.injEq, Except.ok.injEq, Prod.mk.injEq] at h
        obtain ⟨h1, -⟩ := h
        subst h1
        rfl
    · intro env tokens i st ord depth st' j h
      rw [itemLoop] at h
      by_cases c0 : i < tokens.length ∧ (tokens.getD i defTok).type ≠ "list_item_close"
      · rw [if_pos c0] at h
        try simp only [] at h
        by_cases c1 : (tokens.getD i defTok).type = "bullet_list_open"
        · rw [if_pos c1] at h
          rcases hm : handleList env fuel tokens i st false with _ | r
          · rw [hm] at h; exact Option.noConfusion h
          · rw [hm] at h
            cases r with
            | error es => simp at h
            | ok p =>
              obtain ⟨st1, i1⟩ := p
              exact (ihIL _ _ _ _ _ _ _ _ h).trans (ihL _ _ _ _ _ _ _ hm)
        · rw [if_neg c1] at h
          by_cases c2 : (tokens.getD i defTok).type = "ordered_list_open"
          · rw [if_pos c2] at h
            rcases hm : handleList env fuel tokens i st true with _ | r
            · rw [hm] at h; exact Option.noConfusion h
            · rw [hm] at h
              cases r with
              | error es => simp at h
              | ok p =>
                obtain ⟨st1, i1⟩ := p
                exact (ihIL _ _ _ _ _ _ _ _ h).trans (ihL _ _ _ _ _ _ _ hm)
          · rw [if_neg c2] at h
            by_cases c3 : (tokens.getD i defTok).type = "blockquote_open"
            · rw [if_pos c3] at h
              rcases hm : handleBlockquote env fuel tokens i st with _ | r
              · rw [hm] at h; exact Option.noConfusion h
              · rw [hm] at h
                cases r with
                | error es => simp at h
                | ok p =>
                  obtain ⟨st1, i1⟩ := p
                  exact (ihIL _ _ _ _ _ _ _ _ h).trans (ihB _ _ _ _ _ _ hm)
            · rw [if_neg c3] at h
              rcases hd : itemPlainStep env tokens i st ord depth with es | p
              · rw [hd] at h; simp at h
              · rw [hd] at h
                obtain ⟨st1, i1⟩ := p
                exact (ihIL _ _ _ _ _ _ _ _ h).trans (bq_itemPlainStep hd)
      · rw [if_neg c0] at h
        simp only [Option.some.injEq, Except.ok.injEq, Prod.mk.injEq] at h
        obtain ⟨h1, -⟩ := h
        subst h1
        rfl
    · intro env tokens i st st' j h
      rw [handleBlockquote] at h
      try simp only [] at h
      rcases hcb : collectBQ tokens tokens.length (i + 1) 1 [] with ⟨inner, iExit⟩
      rw [hcb] at h
      rcases hm : processTokens env fuel inner 0
          { st with blockquoteDepth := st.blockquoteDepth + 1 } with _ | r
      · rw [hm] at h; exact Option.noConfusion h
      · rw [hm] at h
        cases r with
        | error es => simp at h
        | ok st2 =>
          simp only [Option.some.injEq, Except.ok.injEq, Prod.mk.injEq] at h
          obtain ⟨h1, -⟩ := h
          subst h1
          have h2 := ihP _ _ _ _ _ hm
          simp only at h2 ⊢
          omega

/-- C3 (amended): on every normal (non-raising) return of
`_handle_blockquote`, the builder's `_blockquote_depth` equals its value
before the call.  (As stated the claim is refuted — see
`blockquote_depth_leaks_on_error`: on the exception path the increment
is not undone, since the handler lacks a `try`/`finally`.) -/
theorem blockquote_depth_restored_on_ok (env : Env) (fuel : Nat) (tokens : List Token)
    (i : Nat) (st st' : BState) (j : Nat)
    (h : handleBlockquote env fuel tokens i st = some (.ok (st', j))) :
    st'.blockquoteDepth = st.blockquoteDepth :=
  (bqPres fuel).2.2.2.2 env tokens i st st' j h

/-- C3 witness: a well-formed blockquote around one paragraph, from the
initial state. -/
theorem blockquote_depth_restored_on_ok_witness :
    (⟨[DEv.paraB 0, DEv.run (RE.text "X" false false false), DEv.bqStyled 1, DEv.bqColored],
        0, 0, []⟩ : BState).blockquoteDepth = initState.blockquoteDepth :=
  blockquote_depth_restored_on_ok env0 9 goodBqToks 0 initState _ 5 rfl

/- ═══════════ C2: termination and single-sweep progress ═══════════ -/

lemma grabInline_ge (tokens : List Token) (i : Nat) : i ≤ (grabInline tokens i).2 := by
  unfold grabInline
  split
  · exact Nat.le_succ i
  · exact Nat.le_refl i

lemma collectTableRows_ge : ∀ (n : Nat) (tokens : List Token) (i : Nat)
    (rows : List (List Cell × Bool)) (cur : List Cell) (hdr : Bool),
    tokens.length - i ≤ n → i ≤ (collectTableRows tokens i rows cur hdr).2 := by
  intro n
  induction n with
  | zero =>
    intro tokens i rows cur hdr hle
    rw [collectTableRows]
    rw [dif_neg (by omega : ¬i < tokens.length)]
  | succ n ihn =>
    intro tokens i rows cur hdr hle
    rw [collectTableRows]
    by_cases hi : i < tokens.length
    · rw [dif_pos hi]
      have hg := grabInline_ge tokens (i + 1)
      simp only []
      repeat' split
      all_goals first
        | (refine le_trans ?_ (ihn tokens _ _ _ _ ?_) <;> omega)
        | exact Nat.le_succ i
        | exact Nat.le_refl i
    · rw [dif_neg hi]

lemma fnLoop_ge : ∀ (n : Nat) (env : Env) (tokens : List Token) (i : Nat) (depth : Int)
    (st st' : BState) (j : Nat), tokens.length - i ≤ n →
    fnLoop env tokens i depth st = .ok (st', j) → i ≤ j := by
  intro n
  induction n with
  | zero =>
    intro env tokens i depth st st' j hle h
    rw [fnLoop] at h
    rw [dif_neg (by omega : ¬(i < tokens.length ∧ depth > 0))] at h
    simp only [Except.ok.injEq, Prod.mk.injEq] at h
    omega
  | succ n ihn =>
    intro env tokens i depth st st' j hle h
    rw [fnLoop] at h
    by_cases hc : i < tokens.length ∧ depth > 0
    · rw [dif_pos hc] at h
      beta_reduce at h
      have hs1 := skipClose_ge tokens (i + 1) "paragraph_close"
      have hs2 := skipClose_ge tokens (i + 1 + 1) "paragraph_close"
      by_cases h1 : (tokens.getD i defTok).type = "footnote_block_open"
      · rw [if_pos h1] at h
        have := ihn env tokens (i + 1) _ _ _ _ (by omega) h
        omega
      · rw [if_neg h1] at h
        by_cases h2 : (tokens.getD i defTok).type = "footnote_block_close"
        · rw [if_pos h2] at h
          by_cases h3 : depth - 1 = 0
          · rw [if_pos h3] at h
            simp only [Except.ok.injEq, Prod.mk.injEq] at h
            omega
          · rw [if_neg h3] at h
            have := ihn env tokens (i + 1) _ _ _ _ (by omega) h
            omega
        · rw [if_neg h2] at h
          by_cases h3 : (tokens.getD i defTok).type = "footnote_open"
          · rw [if_pos h3] at h
            have := ihn env tokens (i + 1) _ _ _ _ (by omega) h
            omega
          · rw [if_neg h3] at h
            by_cases h4 : (tokens.getD i defTok).type = "footnote_close"
            · rw [if_pos h4] at h
              have := ihn env tokens (i + 1) _ _ _ _ (by omega) h
              omega
            · rw [if_neg h4] at h
              by_cases h5 : (tokens.getD i defTok).type = "paragraph_open"
              · rw [if_pos h5] at h
                by_cases h6 : i + 1 < tokens.length ∧
                    (tokens.getD (i + 1) defTok).type = "inline"
                · rw [if_pos h6] at h
                  simp only [] at h
                  rcases hpe : (if (tokens.getD (i + 1) defTok).children.isEmpty = true
                      then (([] : List RE), (none : Option String))
                      else processInline env (tokens.getD (i + 1) defTok).children)
                    with ⟨runs, err⟩
                  rw [hpe] at h
                  cases err with
                  | some e => exact Except.noConfusion h
                  | none =>
                    have hh : fnLoop env tokens
                        (skipClose tokens (i + 1 + 1) "paragraph_close") depth
                        { st with doc := st.doc ++ [DEv.fnParaB] ++ List.map DEv.run runs } =
                        Except.ok (st', j) := h
                    have := ihn env tokens _ _ _ _ _ (by omega) hh
                    omega
                · rw [if_neg h6] at h
                  have := ihn env tokens _ _ _ _ _ (by omega) h
                  omega
              · rw [if_neg h5] at h
                have := ihn env tokens (i + 1) _ _ _ _ (by omega) h
                omega
    · rw [dif_neg hc] at h
      simp only [Except.ok.injEq, Prod.mk.injEq] at h
      omega

lemma emitTable_idx {env : Env} {rows : List (List Cell × Bool)} {st : BState}
    {iE : Nat} {st' : BState} {j : Nat} (h : emitTable env rows st iE = .ok (st', j)) :
    j = iE := by
  unfold emitTable at h
  repeat' split at h
  all_goals try simp_all
  all_goals repeat' split at h
  all_goals try simp_all
  all_goals (obtain ⟨-, h2⟩ := h; omega)

lemma prog_handleHeading {env : Env} {tokens : List Token} {i : Nat} {st st' : BState}
    {j : Nat} (h : handleHeading env tokens i st = .ok (st', j)) : i < j := by
  unfold handleHeading at h
  rcases hio : intOfTagChar (tokens.getD i defTok).tag with e | lvl
  · rw [hio] at h; exact Except.noConfusion h
  · rw [hio] at h
    rcases hgi : grabInline tokens (i + 1) with ⟨itok, i2⟩
    rw [hgi] at h
    simp only [] at h
    rcases hir : inlineRunsOf env itok with ⟨runs, err⟩
    rw [hir] at h
    cases err with
    | some e => exact Except.noConfusion h
    | none =>
      simp only [Except.ok.injEq, Prod.mk.injEq] at h
      obtain ⟨-, h2⟩ := h
      have hg2 : i + 1 ≤ i2 := by
        have := grabInline_ge tokens (i + 1)
        rw [hgi] at this
        exact this
      have hs := skipClose_ge tokens i2 "heading_close"
      omega

lemma prog_handleParagraph {env : Env} {tokens : List Token} {i : Nat} {st st' : BState}
    {j : Nat} (h : handleParagraph env tokens i st = .ok (st', j)) : i < j := by
  unfold handleParagraph at h
  rcases hgi : grabInline tokens (i + 1) with ⟨itok, i2⟩
  rw [hgi] at h
  simp only [] at h
  rcases hir : inlineRunsOf env itok with ⟨runs, err⟩
  rw [hir] at h
  cases err with
  | some e => exact Except.noConfusion h
  | none =>
    simp only [Except.ok.injEq, Prod.mk.injEq] at h
    obtain ⟨-, h2⟩ := h
    have hg2 : i + 1 ≤ i2 := by
      have := grabInline_ge tokens (i + 1)
      rw [hgi] at this
      exact this
    have hs := skipClose_ge tokens i2 "paragraph_close"
    omega

lemma prog_handleTable {env : Env} {tokens : List Token} {i : Nat} {st st' : BState}
    {j : Nat} (h : handleTable env tokens i st = .ok (st', j)) : i < j := by
  unfold handleTable at h
  rcases hct : collectTableRows tokens (i + 1) [] [] false with ⟨rows, iExit⟩
  rw [hct] at h
  have h1 : j = iExit := emitTable_idx h
  have h2 : i + 1 ≤ iExit := by
    have := collectTableRows_ge (tokens.length - (i + 1)) tokens (i + 1) [] [] false
      (by omega)
    rw [hct] at this
    exact this
  omega

lemma prog_handleFootnoteBlock {env : Env} {tokens : List Token} {i : Nat}
    {st st' : BState} {j : Nat} (h : handleFootnoteBlock env tokens i st = .ok (st', j)) :
    i < j := by
  unfold handleFootnoteBlock at h
  have := fnLoop_ge (tokens.length - (i + 1)) env tokens (i + 1) 1
    { st with doc := st.doc ++ [DEv.hrB, DEv.fnTitle] } st' j (by omega) h
  omega

lemma prog_dispatchPlain {env : Env} {tokens : List Token} {i : Nat} {st st' : BState}
    {j : Nat} (h : dispatchPlain env tokens i st = .ok (st', j)) : i < j := by
  unfold dispatchPlain at h
  simp only [] at h
  by_cases c1 : (tokens.getD i defTok).type = "heading_open"
  · rw [if_pos c1] at h; exact prog_handleHeading h
  · rw [if_neg c1] at h
    by_cases c2 : (tokens.getD i defTok).type = "paragraph_open"
    · rw [if_pos c2] at h; exact prog_handleParagraph h
    · rw [if_neg c2] at h
      by_cases c3 : (tokens.getD i defTok).type = "fence" ∨
          (tokens.getD i defTok).type = "code_block"
      · rw [if_pos c3] at h
        rcases hcb : handleCodeBlock env (tokens.getD i defTok) st with es | st1
        · rw [hcb] at h; exact Except.noConfusion h
        · rw [hcb] at h
          simp only [Except.ok.injEq, Prod.mk.injEq] at h
          omega
      · rw [if_neg c3] at h
        by_cases c4 : (tokens.getD i defTok).type = "math_block" ∨
            (tokens.getD i defTok).type = "math_block_eqno"
        · rw [if_pos c4] at h
          simp only [Except.ok.injEq, Prod.mk.injEq] at h
          omega
        · rw [if_neg c4] at h
          by_cases c5 : (tokens.getD i defTok).type = "table_open"
          · rw [if_pos c5] at h; exact prog_handleTable h
          · rw [if_neg c5] at h
            by_cases c6 : (tokens.getD i defTok).type = "hr"
            · rw [if_pos c6] at h
              simp only [Except.ok.injEq, Prod.mk.injEq] at h
              omega
            · rw [if_neg c6] at h
              by_cases c7 : (tokens.getD i defTok).type = "html_block"
              · rw [if_pos c7] at h
                simp only [Except.ok.injEq, Prod.mk.injEq] at h
                omega
              · rw [if_neg c7] at h
                by_cases c8 : (tokens.getD i defTok).type = "front_matter"
                · rw [if_pos c8] at h
                  simp only [Except.ok.injEq, Prod.mk.injEq] at h
                  omega
                · rw [if_neg c8] at h
                  by_cases c9 : (tokens.getD i defTok).type = "footnote_block_open"
                  · rw [if_pos c9] at h; exact prog_handleFootnoteBlock h
                  · rw [if_neg c9] at h
                    simp only [Except.ok.injEq, Prod.mk.injEq] at h
                    omega

lemma prog_itemPlainStep {env : Env} {tokens : List Token} {i : Nat} {st st' : BState}
    {ordered : Bool} {depth : Int} {j : Nat}
    (h : itemPlainStep env tokens i st ordered depth = .ok (st', j)) : i < j := by
  unfold itemPlainStep at h
  simp only [] at h
  by_cases c1 : (tokens.getD i defTok).type = "paragraph_open"
  · rw [if_pos c1] at h
    rcases hgi : grabInline tokens (i + 1) with ⟨itok, i2⟩
    rw [hgi] at h
    simp only [] at h
    rcases hir : inlineRunsOf env itok with ⟨runs, err⟩
    rw [hir] at h
    cases err with
    | some e => exact Except.noConfusion h
    | none =>
      simp only [Except.ok.injEq, Prod.mk.injEq] at h
      obtain ⟨-, h2⟩ := h
      have hg2 : i + 1 ≤ i2 := by
        have := grabInline_ge tokens (i + 1)
        rw [hgi] at this
        exact this
      have hs := skipClose_ge tokens i2 "paragraph_close"
      omega
  · rw [if_neg c1] at h
    by_cases c2 : (tokens.getD i defTok).type = "fence" ∨
        (tokens.getD i defTok).type = "code_block"
    · rw [if_pos c2] at h
      rcases hcb : handleCodeBlock env (tokens.getD i defTok) st with es | st1
      · rw [hcb] at h; exact Except.noConfusion h
      · rw [hcb] at h
        simp only [Except.ok.injEq, Prod.mk.injEq] at h
        omega
    · rw [if_neg c2] at h
      by_cases c3 : (tokens.getD i defTok).type = "math_block" ∨
          (tokens.getD i defTok).type = "math_block_eqno"
      · rw [if_pos c3] at h
        simp only [Except.ok.injEq, Prod.mk.injEq] at h
        omega
      · rw [if_neg c3] at h
        simp only [Except.ok.injEq, Prod.mk.injEq] at h
        omega

lemma collectBQ_ge (tokens : List Token) : ∀ (fuel i : Nat) (depth : Int)
    (acc : List Token), i ≤ (collectBQ tokens fuel i depth acc).2 := by
  intro fuel
  induction fuel with
  | zero => intro i depth acc; exact Nat.le_refl i
  | succ fuel ihf =>
    intro i depth acc
    rw [collectBQ]
    simp only []
    repeat' split
    all_goals first
      | (refine le_trans ?_ (ihf _ _ _) <;> omega)
      | exact Nat.le_succ i
      | exact Nat.le_refl i

lemma progLoops : ∀ fuel : Nat,
    (∀ env tokens i st ord st' j, handleList env fuel tokens i st ord = some (.ok (st', j)) →
      i < j) ∧
    (∀ env tokens i st ord depth st' j,
      listLoop env fuel tokens i st ord depth = some (.ok (st', j)) → i ≤ j) ∧
    (∀ env tokens i st ord depth st' j,
      itemLoop env fuel tokens i st ord depth = some (.ok (st', j)) → i ≤ j) ∧
    (∀ env tokens i st st' j, handleBlockquote env fuel tokens i st = some (.ok (st', j)) →
      i < j) := by
  intro fuel
  induction fuel with
  | zero =>
    refine ⟨?_, ?_, ?_, ?_⟩
    · intro env tokens i st ord st' j h; exact Option.noConfusion h
    · intro env tokens i st ord depth st' j h; exact Option.noConfusion h
    · intro env tokens i st ord depth st' j h; exact Option.noConfusion h
    · intro env tokens i st st' j h; exact Option.noConfusion h
  | succ fuel ih =>
    obtain ⟨ihL, ihLL, ihIL, ihB⟩ := ih
    refine ⟨?_, ?_, ?_, ?_⟩
    · intro env tokens i st ord st' j h
      simp only [handleList] at h
      split at h
      · exact Option.noConfusion h
      · simp at h
      · next st3 i3 heq =>
        simp only [Option.some.injEq, Except.ok.injEq, Prod.mk.injEq] at h
        obtain ⟨-, h2⟩ := h
        subst h2
        have h3 := ihLL _ _ _ _ _ _ _ _ heq
        omega
    · intro env tokens i st ord depth st' j h
      rw [listLoop] at h
      by_cases c0 : i < tokens.length
      · rw [if_pos c0] at h
        try simp only [] at h
        by_cases c1 : (tokens.getD i defTok).type = "bullet_list_close" ∨
            (tokens.getD i defTok).type = "ordered_list_close"
        · rw [if_pos c1] at h
          simp only [Option.some.injEq, Except.ok.injEq, Prod.mk.injEq] at h
          omega
        · rw [if_neg c1] at h
          by_cases c2 : (tokens.getD i defTok).type = "list_item_open"
          · rw [if_pos c2] at h
            split at h
            · exact Option.noConfusion h
            · simp at h
            · next st2 i2 heq =>
              have h2 := ihIL _ _ _ _ _ _ _ _ heq
              have h3 := ihLL _ _ _ _ _ _ _ _ h
              have hs := skipClose_ge tokens i2 "list_item_close"
              omega
          · rw [if_neg c2] at h
            have := ihLL _ _ _ _ _ _ _ _ h
            omega
      · rw [if_neg c0] at h
        simp only [Option.some.injEq, Except.ok.injEq, Prod.mk.injEq] at h
        omega
    · intro env tokens i st ord depth st' j h
      rw [itemLoop] at h
      by_cases c0 : i < tokens.length ∧ (tokens.getD i defTok).type ≠ "list_item_close"
      · rw [if_pos c0] at h
        try simp only [] at h
        by_cases c1 : (tokens.getD i defTok).type = "bullet_list_open"
        · rw [if_pos c1] at h
          rcases hm : handleList env fuel tokens i st false with _ | r
          · rw [hm] at h; exact Option.noConfusion h
          · rw [hm] at h
            cases r with
            | error es => simp at h
            | ok p =>
              obtain ⟨st1, i1⟩ := p
              have h1 := ihL _ _ _ _ _ _ _ hm
              have h2 := ihIL _ _ _ _ _ _ _ _ h
              omega
        · rw [if_neg c1] at h
          by_cases c2 : (tokens.getD i defTok).type = "ordered_list_open"
          · rw [if_pos c2] at h
            rcases hm : handleList env fuel tokens i st true with _ | r
            · rw [hm] at h; exact Option.noConfusion h
            · rw [hm] at h
              cases r with
              | error es => simp at h
              | ok p =>
                obtain ⟨st1, i1⟩ := p
                have h1 := ihL _ _ _ _ _ _ _ hm
                have h2 := ihIL _ _ _ _ _ _ _ _ h
                omega
          · rw [if_neg c2] at h
            by_cases c3 : (tokens.getD i defTok).type = "blockquote_open"
            · rw [if_pos c3] at h
              rcases hm : handleBlockquote env fuel tokens i st with _ | r
              · rw [hm] at h; exact Option.noConfusion h
              · rw [hm] at h
                cases r with
                | error es => simp at h
                | ok p =>
                  obtain ⟨st1, i1⟩ := p
                  have h1 := ihB _ _ _ _ _ _ hm
                  have h2 := ihIL _ _ _ _ _ _ _ _ h
                  omega
            · rw [if_neg c3] at h
              rcases hd : itemPlainStep env tokens i st ord depth with es | p
              · rw [hd] at h; simp at h
              · rw [hd] at h
                obtain ⟨st1, i1⟩ := p
                have h1 := prog_itemPlainStep hd
                have h2 := ihIL _ _ _ _ _ _ _ _ h
                omega
      · rw [if_neg c0] at h
        simp only [Option.some.injEq, Except.ok.injEq, Prod.mk.injEq] at h
        omega
    · intro env tokens i st st' j h
      rw [handleBlockquote] at h
      try simp only [] at h
      rcases hcb : collectBQ tokens tokens.length (i + 1) 1 [] with ⟨inner, iExit⟩
      rw [hcb] at h
      have hge : i + 1 ≤ iExit := by
        have := collectBQ_ge tokens tokens.length (i + 1) 1 []
        rw [hcb] at this
        exact this
      rcases hm : processTokens env fuel inner 0
          { st with blockquoteDepth := st.blockquoteDepth + 1 } with _ | r
      · rw [hm] at h; exact Option.noConfusion h
      · rw [hm] at h
        cases r with
        | error es => simp at h
        | ok st2 =>
          simp only [Option.some.injEq, Except.ok.injEq, Prod.mk.injEq] at h
          obtain ⟨-, h2⟩ := h
          omega

lemma monoAll : ∀ (fuel fuel' : Nat), fuel ≤ fuel' →
    (∀ env tokens i st r, processTokens env fuel tokens i st = some r →
      processTokens env fuel' tokens i st = some r) ∧
    (∀ env tokens i st ord r, handleList env fuel tokens i st ord = some r →
      handleList env fuel' tokens i st ord = some r) ∧
    (∀ env tokens i st ord depth r, listLoop env fuel tokens i st ord depth = some r →
      listLoop env fuel' tokens i st ord depth = some r) ∧
    (∀ env tokens i st ord depth r, itemLoop env fuel tokens i st ord depth = some r →
      itemLoop env fuel' tokens i st ord depth = some r) ∧
    (∀ env tokens i st r, handleBlockquote env fuel tokens i st = some r →
      handleBlockquote env fuel' tokens i st = some r) := by
  intro fuel
  induction fuel with
  | zero =>
    intro fuel' hle
    refine ⟨?_, ?_, ?_, ?_, ?_⟩
    · intro env tokens i st r h; exact Option.noConfusion h
    · intro env tokens i st ord r h; exact Option.noConfusion h
    · intro env tokens i st ord depth r h; exact Option.noConfusion h
    · intro env tokens i st ord depth r h; exact Option.noConfusion h
    · intro env tokens i st r h; exact Option.noConfusion h
  | succ fuel ihf =>
    intro fuel' hle
    cases fuel' with
    | zero => exact absurd hle (by omega)
    | succ fuel2 =>
      obtain ⟨ihP, ihL, ihLL, ihIL, ihB⟩ := ihf fuel2 (by omega)
      refine ⟨?_, ?_, ?_, ?_, ?_⟩
      · intro env tokens i st r h
        rw [processTokens] at h ⊢
        by_cases c0 : i < tokens.length
        · rw [if_pos c0] at h ⊢
          try simp only [] at h ⊢
          by_cases c1 : (tokens.getD i defTok).type = "bullet_list_open"
          · rw [if_pos c1] at h ⊢
            rcases hm : handleList env fuel tokens i st false with _ | r0
            · rw [hm] at h; exact Option.noConfusion h
            · rw [hm] at h
              rw [ihL _ _ _ _ _ _ hm]
              cases r0 with
              | error es => exact h
              | ok p =>
                obtain ⟨st1, i1⟩ := p
                exact ihP _ _ _ _ _ h
          · rw [if_neg c1] at h ⊢
            by_cases c2 : (tokens.getD i defTok).type = "ordered_list_open"
            · rw [if_pos c2] at h ⊢
              rcases hm : handleList env fuel tokens i st true with _ | r0
              · rw [hm] at h; exact Option.noConfusion h
              · rw [hm] at h
                rw [ihL _ _ _ _ _ _ hm]
                cases r0 with
                | error es => exact h
                | ok p =>
                  obtain ⟨st1, i1⟩ := p
                  exact ihP _ _ _ _ _ h
            · rw [if_neg c2] at h ⊢
              by_cases c3 : (tokens.getD i defTok).type = "blockquote_open"
              · rw [if_pos c3] at h ⊢
                rcases hm : handleBlockquote env fuel tokens i st with _ | r0
                · rw [hm] at h; exact Option.noConfusion h
                · rw [hm] at h
                  rw [ihB _ _ _ _ _ hm]
                  cases r0 with
                  | error es => exact h
                  | ok p =>
                    obtain ⟨st1, i1⟩ := p
                    exact ihP _ _ _ _ _ h
              · rw [if_neg c3] at h ⊢
                rcases hd : dispatchPlain env tokens i st with es | p
                · rw [hd] at h; exact h
                · rw [hd] at h
                  obtain ⟨st1, i1⟩ := p
                  exact ihP _ _ _ _ _ h
        · rw [if_neg c0] at h ⊢
          exact h
      · intro env tokens i st ord r h
        simp only [handleList] at h ⊢
        split at h
        · exact Option.noConfusion h
        · next es heq =>
          rw [ihLL _ _ _ _ _ _ _ heq]
          exact h
        · next st3 i3 heq =>
          rw [ihLL _ _ _ _ _ _ _ heq]
          exact h
      · intro env tokens i st ord depth r h
        rw [listLoop] at h ⊢
        by_cases c0 : i < tokens.length
        · rw [if_pos c0] at h ⊢
          try simp only [] at h ⊢
          by_cases c1 : (tokens.getD i defTok).type = "bullet_list_close" ∨
              (tokens.getD i defTok).type = "ordered_list_close"
          · rw [if_pos c1] at h ⊢
            exact h
          · rw [if_neg c1] at h ⊢
            by_cases c2 : (tokens.getD i defTok).type = "list_item_open"
            · rw [if_pos c2] at h ⊢
              split at h
              · exact Option.noConfusion h
              · next es heq =>
                rw [ihIL _ _ _ _ _ _ _ heq]
                exact h
              · next st2 i2 heq =>
                rw [ihIL _ _ _ _ _ _ _ heq]
                exact ihLL _ _ _ _ _ _ _ h
            · rw [if_neg c2] at h ⊢
              exact ihLL _ _ _ _ _ _ _ h
        · rw [if_neg c0] at h ⊢
          exact h
      · intro env tokens i st ord depth r h
        rw [itemLoop] at h ⊢
        by_cases c0 : i < tokens.length ∧ (tokens.getD i defTok).type ≠ "list_item_close"
        · rw [if_pos c0] at h ⊢
          try simp only [] at h ⊢
          by_cases c1 : (tokens.getD i defTok).type = "bullet_list_open"
          · rw [if_pos c1] at h ⊢
            rcases hm : handleList env fuel tokens i st false with _ | r0
            · rw [hm] at h; exact Option.noConfusion h
            · rw [hm] at h
              rw [ihL _ _ _ _ _ _ hm]
              cases r0 with
              | error es => exact h
              | ok p =>
                obtain ⟨st1, i1⟩ := p
                exact ihIL _ _ _ _ _ _ _ h
          · rw [if_neg c1] at h ⊢
            by_cases c2 : (tokens.getD i defTok).type = "ordered_list_open"
            · rw [if_pos c2] at h ⊢
              rcases hm : handleList env fuel tokens i st true with _ | r0
              · rw [hm] at h; exact Option.noConfusion h
              · rw [hm] at h
                rw [ihL _ _ _ _ _ _ hm]
                cases r0 with
                | error es => exact h
                | ok p =>
                  obtain ⟨st1, i1⟩ := p
                  exact ihIL _ _ _ _ _ _ _ h
            · rw [if_neg c2] at h ⊢
              by_cases c3 : (tokens.getD i defTok).type = "blockquote_open"
              · rw [if_pos c3] at h ⊢
                rcases hm : handleBlockquote env fuel tokens i st with _ | r0
                · rw [hm] at h; exact Option.noConfusion h
                · rw [hm] at h
                  rw [ihB _ _ _ _ _ hm]
                  cases r0 with
                  | error es => exact h
                  | ok p =>
                    obtain ⟨st1, i1⟩ := p
                    exact ihIL _ _ _ _ _ _ _ h
              · rw [if_neg c3] at h ⊢
                rcases hd : itemPlainStep env tokens i st ord depth with es | p
                · rw [hd] at h; exact h
                · rw [hd] at h
                  obtain ⟨st1, i1⟩ := p
                  exact ihIL _ _ _ _ _ _ _ h
        · rw [if_neg c0] at h ⊢
          exact h
      · intro env tokens i st r h
        rw [handleBlockquote] at h ⊢
        try simp only [] at h ⊢
        rcases hcb : collectBQ tokens tokens.length (i + 1) 1 [] with ⟨inner, iExit⟩
        rw [hcb] at h
        rcases hm : processTokens env fuel inner 0
            { st with blockquoteDepth := st.blockquoteDepth + 1 } with _ | r0
        · rw [hm] at h; exact Option.noConfusion h
        · rw [hm] at h
          rw [ihP _ _ _ _ _ hm]
          cases r0 with
          | error es => exact h
          | ok st2 => exact h

lemma processTokens_stop (env : Env) (tokens : List Token) (i : Nat) (st : BState)
    (f : Nat) (h : tokens.length ≤ i) :
    processTokens env (f + 1) tokens i st = some (.ok st) := by
  rw [processTokens]
  rw [if_neg (by omega)]

lemma listLoop_stop (env : Env) (tokens : List Token) (i : Nat) (st : BState) (ord : Bool)
    (depth : Int) (f : Nat) (h : tokens.length ≤ i) :
    listLoop env (f + 1) tokens i st ord depth = some (.ok (st, i)) := by
  rw [listLoop]
  rw [if_neg (by omega)]

lemma itemLoop_stop (env : Env) (tokens : List Token) (i : Nat) (st : BState) (ord : Bool)
    (depth : Int) (f : Nat) (h : tokens.length ≤ i) :
    itemLoop env (f + 1) tokens i st ord depth = some (.ok (st, i)) := by
  rw [itemLoop]
  rw [if_neg (fun hc => absurd hc.1 (by omega))]

lemma collectBQ_end (tokens : List Token) (fuel i : Nat) (depth : Int)
    (acc : List Token) (h : tokens.length ≤ i) :
    collectBQ tokens fuel i depth acc = (acc, i) := by
  cases fuel with
  | zero => rfl
  | succ fuel =>
    rw [collectBQ]
    rw [if_neg (by omega)]

lemma collectBQ_len (tokens : List Token) : ∀ (fuel i : Nat) (depth : Int)
    (acc : List Token),
    (collectBQ tokens fuel i depth acc).1.length ≤ acc.length + (tokens.length - i) := by
  intro fuel
  induction fuel with
  | zero =>
    intro i depth acc
    rw [collectBQ]
    exact Nat.le_add_right _ _
  | succ fuel ihf =>
    intro i depth acc
    rw [collectBQ]
    simp only []
    repeat' split
    all_goals first
      | (refine le_trans (ihf _ _ _) ?_
         simp only [List.length_append, List.length_singleton]
         omega)
      | exact Nat.le_add_right _ _

lemma handleList_end (env : Env) (tokens : List Token) (i : Nat) (st : BState)
    (ord : Bool) (f : Nat) (h : tokens.length ≤ i) :
    ∃ r, handleList env (f + 1 + 1) tokens i st ord = some r :=
  ⟨_, by
    rw [handleList]
    try simp only []
    rw [listLoop_stop env tokens (i + 1) _ ord _ f (by omega)]⟩

lemma handleBlockquote_end (env : Env) (tokens : List Token) (i : Nat) (st : BState)
    (f : Nat) (h : tokens.length ≤ i) :
    ∃ r, handleBlockquote env (f + 1 + 1) tokens i st = some r :=
  ⟨_, by
    rw [handleBlockquote]
    try simp only []
    rw [collectBQ_end tokens tokens.length (i + 1) 1 [] (by omega)]
    rw [processTokens_stop env [] 0 _ f (by simp)]⟩

lemma termEnd (env : Env) (tokens : List Token) (i : Nat) (hge : tokens.length ≤ i) :
    (∀ st, ∃ fuel r, processTokens env fuel tokens i st = some r) ∧
    (∀ st ord, ∃ fuel r, handleList env fuel tokens i st ord = some r) ∧
    (∀ st ord depth, ∃ fuel r, listLoop env fuel tokens i st ord depth = some r) ∧
    (∀ st ord depth, ∃ fuel r, itemLoop env fuel tokens i st ord depth = some r) ∧
    (∀ st, ∃ fuel r, handleBlockquote env fuel tokens i st = some r) := by
  refine ⟨?_, ?_, ?_, ?_, ?_⟩
  · intro st
    exact ⟨0 + 1, .ok st, processTokens_stop env tokens i st 0 hge⟩
  · intro st ord
    obtain ⟨r, hr⟩ := handleList_end env tokens i st ord 0 hge
    exact ⟨0 + 1 + 1, r, hr⟩
  · intro st ord depth
    exact ⟨0 + 1, .ok (st, i), listLoop_stop env tokens i st ord depth 0 hge⟩
  · intro st ord depth
    exact ⟨0 + 1, .ok (st, i), itemLoop_stop env tokens i st ord depth 0 hge⟩
  · intro st
    obtain ⟨r, hr⟩ := handleBlockquote_end env tokens i st 0 hge
    exact ⟨0 + 1 + 1, r, hr⟩

lemma termAll (env : Env) : ∀ (N : Nat) (tokens : List Token), tokens.length ≤ N →
    (∀ i st, ∃ fuel r, processTokens env fuel tokens i st = some r) ∧
    (∀ i st ord, ∃ fuel r, handleList env fuel tokens i st ord = some r) ∧
    (∀ i st ord depth, ∃ fuel r, listLoop env fuel tokens i st ord depth = some r) ∧
    (∀ i st ord depth, ∃ fuel r, itemLoop env fuel tokens i st ord depth = some r) ∧
    (∀ i st, ∃ fuel r, handleBlockquote env fuel tokens i st = some r) := by
  intro N
  induction N with
  | zero =>
    intro tokens hlen
    exact ⟨fun i st => (termEnd env tokens i (by omega)).1 st,
           fun i st ord => (termEnd env tokens i (by omega)).2.1 st ord,
           fun i st ord depth => (termEnd env tokens i (by omega)).2.2.1 st ord depth,
           fun i st ord depth => (termEnd env tokens i (by omega)).2.2.2.1 st ord depth,
           fun i st => (termEnd env tokens i (by omega)).2.2.2.2 st⟩
  | succ N ihN =>
    intro tokens hlen
    suffices h : ∀ k i, tokens.length - i ≤ k →
        (∀ st, ∃ fuel r, processTokens env fuel tokens i st = some r) ∧
        (∀ st ord, ∃ fuel r, handleList env fuel tokens i st ord = some r) ∧
        (∀ st ord depth, ∃ fuel r, listLoop env fuel tokens i st ord depth = some r) ∧
        (∀ st ord depth, ∃ fuel r, itemLoop env fuel tokens i st ord depth = some r) ∧
        (∀ st, ∃ fuel r, handleBlockquote env fuel tokens i st = some r) by
      exact ⟨fun i st => (h tokens.length i (by omega)).1 st,
             fun i st ord => (h tokens.length i (by omega)).2.1 st ord,
             fun i st ord depth => (h tokens.length i (by omega)).2.2.1 st ord depth,
             fun i st ord depth => (h tokens.length i (by omega)).2.2.2.1 st ord depth,
             fun i st => (h tokens.length i (by omega)).2.2.2.2 st⟩
    intro k
    induction k with
    | zero =>
      intro i hi
      exact termEnd env tokens i (by omega)
    | succ k ihk =>
      intro i hi
      by_cases hlt : i < tokens.length
      case neg => exact termEnd env tokens i (by omega)
      have hB : ∀ st, ∃ fuel r, handleBlockquote env fuel tokens i st = some r := by
        intro st
        rcases hcb : collectBQ tokens tokens.length (i + 1) 1 [] with ⟨inner, iExit⟩
        have hil : inner.length ≤ N := by
          have hcl := collectBQ_len tokens tokens.length (i + 1) 1 []
          rw [hcb] at hcl
          simp only [List.length_nil] at hcl
          omega
        obtain ⟨fP, rP, hfP⟩ := (ihN inner hil).1 0
          { st with blockquoteDepth := st.blockquoteDepth + 1 }
        cases rP with
        | error es =>
          exact ⟨fP + 1, .error es, by
            rw [handleBlockquote]
            try simp only []
            rw [hcb]
            try simp only []
            rw [hfP]⟩
        | ok st2 =>
          exact ⟨fP + 1, .ok ({ st2 with blockquoteDepth := st2.blockquoteDepth - 1 }, iExit),
            by
            rw [handleBlockquote]
            try simp only []
            rw [hcb]
            try simp only []
            rw [hfP]⟩
      have hL : ∀ st ord, ∃ fuel r, handleList env fuel tokens i st ord = some r := by
        intro st ord
        obtain ⟨fLL, rLL, hfLL⟩ := (ihk (i + 1) (by omega)).2.2.1
          (if ord then
            { st with
                listDepth := st.listDepth + 1
                orderedCounters := dictInsert (st.listDepth + 1 - 1) 0 st.orderedCounters }
           else { st with listDepth := st.listDepth + 1 }) ord (st.listDepth + 1 - 1)
        cases rLL with
        | error es =>
          exact ⟨fLL + 1, .error es, by
            rw [handleList]
            try simp only []
            rw [hfLL]⟩
        | ok p =>
          obtain ⟨st3, i3⟩ := p
          exact ⟨fLL + 1, _, by
            rw [handleList]
            try simp only []
            rw [hfLL]⟩
      have hLL : ∀ st ord depth, ∃ fuel r, listLoop env fuel tokens i st ord depth = some r := by
        intro st ord depth
        by_cases c1 : (tokens.getD i defTok).type = "bullet_list_close" ∨
            (tokens.getD i defTok).type = "ordered_list_close"
        · exact ⟨0 + 1, .ok (st, i + 1), by
            rw [listLoop]
            rw [if_pos hlt]
            try simp only []
            rw [if_pos c1]⟩
        · by_cases c2 : (tokens.getD i defTok).type = "list_item_open"
          · obtain ⟨fIL, rIL, hfIL⟩ := (ihk (i + 1) (by omega)).2.2.2.1
              (if ord then { st with orderedCounters := dictInsert depth ((dictGet depth st.orderedCounters).getD 0 + 1) st.orderedCounters } else st) ord depth
            cases rIL with
            | error es =>
              exact ⟨fIL + 1, .error es, by
                rw [listLoop]
                rw [if_pos hlt]
                try simp only []
                rw [if_neg c1, if_pos c2]
                try simp only []
                rw [hfIL]⟩
            | ok p =>
              obtain ⟨st2, i2⟩ := p
              have hge : i + 1 ≤ i2 := (progLoops fIL).2.2.1 _ _ _ _ _ _ _ _ hfIL
              have hsk := skipClose_ge tokens i2 "list_item_close"
              obtain ⟨fC, rC, hfC⟩ :=
                (ihk (skipClose tokens i2 "list_item_close") (by omega)).2.2.1 st2 ord depth
              have hfIL2 := (monoAll fIL (max fIL fC) (le_max_left _ _)).2.2.2.1
                _ _ _ _ _ _ _ hfIL
              have hfC2 := (monoAll fC (max fIL fC) (le_max_right _ _)).2.2.1
                _ _ _ _ _ _ _ hfC
              exact ⟨max fIL fC + 1, rC, by
                rw [listLoop]
                rw [if_pos hlt]
                try simp only []
                rw [if_neg c1, if_pos c2]
                try simp only []
                rw [hfIL2]
                exact hfC2⟩
          · obtain ⟨fC, rC, hfC⟩ := (ihk (i + 1) (by omega)).2.2.1 st ord depth
            exact ⟨fC + 1, rC, by
              rw [listLoop]
              rw [if_pos hlt]
              try simp only []
              rw [if_neg c1, if_neg c2]
              exact hfC⟩
      have hIL : ∀ st ord depth, ∃ fuel r, itemLoop env fuel tokens i st ord depth = some r := by
        intro st ord depth
        by_cases cg : (tokens.getD i defTok).type = "list_item_close"
        · exact ⟨0 + 1, .ok (st, i), by
            rw [itemLoop]
            rw [if_neg (fun hc => hc.2 cg)]⟩
        · have hc0 : i < tokens.length ∧ (tokens.getD i defTok).type ≠ "list_item_close" :=
            ⟨hlt, cg⟩
          by_cases c1 : (tokens.getD i defTok).type = "bullet_list_open"
          · obtain ⟨fL, rL, hfL⟩ := hL st false
            cases rL with
            | error es =>
              exact ⟨fL + 1, .error es, by
                rw [itemLoop]
                rw [if_pos hc0]
                try simp only []
                rw [if_pos c1]
                rw [hfL]⟩
            | ok p =>
              obtain ⟨st1, i1⟩ := p
              have hprog : i < i1 := (progLoops fL).1 _ _ _ _ _ _ _ hfL
              obtain ⟨fC, rC, hfC⟩ := (ihk i1 (by omega)).2.2.2.1 st1 ord depth
              have hfL2 := (monoAll fL (max fL fC) (le_max_left _ _)).2.1 _ _ _ _ _ _ hfL
              have hfC2 := (monoAll fC (max fL fC) (le_max_right _ _)).2.2.2.1
                _ _ _ _ _ _ _ hfC
              exact ⟨max fL fC + 1, rC, by
                rw [itemLoop]
                rw [if_pos hc0]
                try simp only []
                rw [if_pos c1]
                rw [hfL2]
                exact hfC2⟩
          · by_cases c2 : (tokens.getD i defTok).type = "ordered_list_open"
            · obtain ⟨fL, rL, hfL⟩ := hL st true
              cases rL with
              | error es =>
                exact ⟨fL + 1, .error es, by
                  rw [itemLoop]
                  rw [if_pos hc0]
                  try simp only []
                  rw [if_neg c1, if_pos c2]
                  rw [hfL]⟩
              | ok p =>
                obtain ⟨st1, i1⟩ := p
                have hprog : i < i1 := (progLoops fL).1 _ _ _ _ _ _ _ hfL
                obtain ⟨fC, rC, hfC⟩ := (ihk i1 (by omega)).2.2.2.1 st1 ord depth
                have hfL2 := (monoAll fL (max fL fC) (le_max_left _ _)).2.1 _ _ _ _ _ _ hfL
                have hfC2 := (monoAll fC (max fL fC) (le_max_right _ _)).2.2.2.1
                  _ _ _ _ _ _ _ hfC
                exact ⟨max fL fC + 1, rC, by
                  rw [itemLoop]
                  rw [if_pos hc0]
                  try simp only []
                  rw [if_neg c1, if_pos c2]
                  rw [hfL2]
                  exact hfC2⟩
            · by_cases c3 : (tokens.getD i defTok).type = "blockquote_open"
              · obtain ⟨fB, rB, hfB⟩ := hB st
                cases rB with
                | error es =>
                  exact ⟨fB + 1, .error es, by
                    rw [itemLoop]
                    rw [if_pos hc0]
                    try simp only []
                    rw [if_neg c1, if_neg c2, if_pos c3]
                    rw [hfB]⟩
                | ok p =>
                  obtain ⟨st1, i1⟩ := p
                  have hprog : i < i1 := (progLoops fB).2.2.2 _ _ _ _ _ _ hfB
                  obtain ⟨fC, rC, hfC⟩ := (ihk i1 (by omega)).2.2.2.1 st1 ord depth
                  have hfB2 := (monoAll fB (max fB fC) (le_max_left _ _)).2.2.2.2
                    _ _ _ _ _ hfB
                  have hfC2 := (monoAll fC (max fB fC) (le_max_right _ _)).2.2.2.1
                    _ _ _ _ _ _ _ hfC
                  exact ⟨max fB fC + 1, rC, by
                    rw [itemLoop]
                    rw [if_pos hc0]
                    try simp only []
                    rw [if_neg c1, if_neg c2, if_pos c3]
                    rw [hfB2]
                    exact hfC2⟩
              · rcases hd : itemPlainStep env tokens i st ord depth with es | p
                · exact ⟨0 + 1, .error es, by
                    rw [itemLoop]
                    rw [if_pos hc0]
                    try simp only []
                    rw [if_neg c1, if_neg c2, if_neg c3]
                    rw [hd]⟩
                · obtain ⟨st1, i1⟩ := p
                  have hprog := prog_itemPlainStep hd
                  obtain ⟨fC, rC, hfC⟩ := (ihk i1 (by omega)).2.2.2.1 st1 ord depth
                  exact ⟨fC + 1, rC, by
                    rw [itemLoop]
                    rw [if_pos hc0]
                    try simp only []
                    rw [if_neg c1, if_neg c2, if_neg c3]
                    rw [hd]
                    exact hfC⟩
      have hP : ∀ st, ∃ fuel r, processTokens env fuel tokens i st = some r := by
        intro st
        by_cases c1 : (tokens.getD i defTok).type = "bullet_list_open"
        · obtain ⟨fL, rL, hfL⟩ := hL st false
          cases rL with
          | error es =>
            exact ⟨fL + 1, .error es, by
              rw [processTokens]
              rw [if_pos hlt]
              try simp only []
              rw [if_pos c1]
              rw [hfL]⟩
          | ok p =>
            obtain ⟨st1, i1⟩ := p
            have hprog : i < i1 := (progLoops fL).1 _ _ _ _ _ _ _ hfL
            obtain ⟨fC, rC, hfC⟩ := (ihk i1 (by omega)).1 st1
            have hfL2 := (monoAll fL (max fL fC) (le_max_left _ _)).2.1 _ _ _ _ _ _ hfL
            have hfC2 := (monoAll fC (max fL fC) (le_max_right _ _)).1 _ _ _ _ _ hfC
            exact ⟨max fL fC + 1, rC, by
              rw [processTokens]
              rw [if_pos hlt]
              try simp only []
              rw [if_pos c1]
              rw [hfL2]
              exact hfC2⟩
        · by_cases c2 : (tokens.getD i defTok).type = "ordered_list_open"
          · obtain ⟨fL, rL, hfL⟩ := hL st true
            cases rL with
            | error es =>
              exact ⟨fL + 1, .error es, by
                rw [processTokens]
                rw [if_pos hlt]
                try simp only []
                rw [if_neg c1, if_pos c2]
                rw [hfL]⟩
            | ok p =>
              obtain ⟨st1, i1⟩ := p
              have hprog : i < i1 := (progLoops fL).1 _ _ _ _ _ _ _ hfL
              obtain ⟨fC, rC, hfC⟩ := (ihk i1 (by omega)).1 st1
              have hfL2 := (monoAll fL (max fL fC) (le_max_left _ _)).2.1 _ _ _ _ _ _ hfL
              have hfC2 := (monoAll fC (max fL fC) (le_max_right _ _)).1 _ _ _ _ _ hfC
              exact ⟨max fL fC + 1, rC, by
                rw [processTokens]
                rw [if_pos hlt]
                try simp only []
                rw [if_neg c1, if_pos c2]
                rw [hfL2]
                exact hfC2⟩
          · by_cases c3 : (tokens.getD i defTok).type = "blockquote_open"
            · obtain ⟨fB, rB, hfB⟩ := hB st
              cases rB with
              | error es =>
                exact ⟨fB + 1, .error es, by
                  rw [processTokens]
                  rw [if_pos hlt]
                  try simp only []
                  rw [if_neg c1, if_neg c2, if_pos c3]
                  rw [hfB]⟩
              | ok p =>
                obtain ⟨st1, i1⟩ := p
                have hprog : i < i1 := (progLoops fB).2.2.2 _ _ _ _ _ _ hfB
                obtain ⟨fC, rC, hfC⟩ := (ihk i1 (by omega)).1 st1
                have hfB2 := (monoAll fB (max fB fC) (le_max_left _ _)).2.2.2.2
                  _ _ _ _ _ hfB
                have hfC2 := (monoAll fC (max fB fC) (le_max_right _ _)).1 _ _ _ _ _ hfC
                exact ⟨max fB fC + 1, rC, by
                  rw [processTokens]
                  rw [if_pos hlt]
                  try simp only []
                  rw [if_neg c1, if_neg c2, if_pos c3]
                  rw [hfB2]
                  exact hfC2⟩
            · rcases hd : dispatchPlain env tokens i st with es | p
              · exact ⟨0 + 1, .error es, by
                  rw [processTokens]
                  rw [if_pos hlt]
                  try simp only []
                  rw [if_neg c1, if_neg c2, if_neg c3]
                  rw [hd]⟩
              · obtain ⟨st1, i1⟩ := p
                have hprog := prog_dispatchPlain hd
                obtain ⟨fC, rC, hfC⟩ := (ihk i1 (by omega)).1 st1
                exact ⟨fC + 1, rC, by
                  rw [processTokens]
                  rw [if_pos hlt]
                  try simp only []
                  rw [if_neg c1, if_neg c2, if_neg c3]
                  rw [hd]
                  exact hfC⟩
      exact ⟨hP, hL, hLL, hIL, hB⟩

/-- C2: the Builder's dispatch loop terminates on every finite token
sequence (some fuel suffices, i.e. the extracted loop measure is never
exhausted before completion), and the sweep is single-pass: every
handler invoked by the dispatcher returns an index strictly past its
entry index, so the index never decreases and no token is revisited —
the only re-processing is `_handle_blockquote`'s explicit recursive
delegation over the collected inner sub-sequence, visible in its
definition via `collectBQ`. -/
theorem builder_terminates_single_sweep (env : Env) (tokens : List Token) (st : BState) :
    (∃ fuel r, processTokens env fuel tokens 0 st = some r) ∧
    (∀ i st0 st1 i1, dispatchPlain env tokens i st0 = .ok (st1, i1) → i < i1) ∧
    (∀ fuel i st0 ord st1 i1,
      handleList env fuel tokens i st0 ord = some (.ok (st1, i1)) → i < i1) ∧
    (∀ fuel i st0 st1 i1,
      handleBlockquote env fuel tokens i st0 = some (.ok (st1, i1)) → i < i1) := by
  refine ⟨(termAll env tokens.length tokens (le_refl _)).1 0 st, ?_, ?_, ?_⟩
  · intro i st0 st1 i1 h
    exact prog_dispatchPlain h
  · intro fuel i st0 ord st1 i1 h
    exact (progLoops fuel).1 _ _ _ _ _ _ _ h
  · intro fuel i st0 st1 i1 h
    exact (progLoops fuel).2.2.2 _ _ _ _ _ _ h

/-- C2 witness: concrete progress for a plain paragraph dispatch, an
ordered list, and a blockquote. -/
theorem builder_terminates_single_sweep_witness :
    (1 : Nat) < 4 ∧ (0 : Nat) < 12 ∧ (0 : Nat) < 5 :=
  ⟨(builder_terminates_single_sweep env0 goodBqToks initState).2.1 1 initState _ 4 rfl,
   (builder_terminates_single_sweep env0 orderedToks initState).2.2.1 20 0 initState true
     _ 12 rfl,
   (builder_terminates_single_sweep env0 goodBqToks initState).2.2.2 9 0 initState _ 5 rfl⟩

end Markdocx
